import Mathlib

/-!
# QRSVG contour engine — verification development

This file is a shallow embedding of the QRSVG v1.0 contour engine
(`qrsvg-v1.0.js`) in Lean 4, together with theorems settling the frozen
claims about its natural-language specification.

Modelling conventions:

* JavaScript numbers are modelled as exact rationals (`ℚ`).  The one place
  where IEEE-754 double rounding could in principle diverge from exact
  arithmetic is the linear congruential generator (`a * state` can exceed
  2^53); every claim settled below depends only on inequalities that are
  robust far beyond double precision, so the idealisation is faithful for
  the statements proved here.
* SVG path tokens, which the source keeps as strings (`'M2 2'`, `'h1'`,
  `'a0.5 0.5 0 0 1 0.5 0.5'`, ...), are modelled as a tagged token type
  `Tok`.  String inspection in the source (`startsWith('h')`,
  `step[0] == 'h'`, `parseInt(step.slice(1))`) becomes tag matching; hop
  deltas are integers everywhere in the program, so `parseInt` is the
  identity on them.
* `Math.cos`, `Math.sin` and `Number.prototype.toPrecision(3)` (used only
  by the mosaic style) are transcendental/format-level operations on
  doubles; they are abstracted as parameters in a `JsMath` record.  All
  theorems about the mosaic style hold for every interpretation of these
  three functions.  `Math.PI` is modelled by its exact IEEE-754 double
  value `884279719003555 / 2^48`.
* The two `while` loops of the boundary tracer are modelled with explicit
  fuel; the fuel given is far beyond the bound any walk can reach on the
  given grid, and all concrete evaluations below are with that fuel.
-/

unseal Rat.add Rat.mul Rat.inv Rat.sub

set_option maxRecDepth 8000
set_option maxHeartbeats 2000000

/-- Compass directions used by the boundary tracer (`'n'`, `'e'`, `'s'`,
`'w'` in the source). -/
inductive Dir where
  | n | e | s | w
  deriving DecidableEq

/-- SVG path tokens.  `M x y` = absolute move; `H d` = `'h' + d`;
`V d` = `'v' + d`; `A sw dx dy` = `'a0.5 0.5 0 0 ' + sw + ' ' + dx + ' ' + dy`
(quarter arc, radius 0.5, large-arc flag 0, sweep flag `sw`);
`L x y` = absolute line-to (produced by the jitterer);
`Lr dx dy` = relative `'l'` line (produced by the mosaic style);
`Z` = `'z'`. -/
inductive Tok where
  | M (x y : ℚ)
  | H (d : ℤ)
  | V (d : ℤ)
  | A (sweep : Bool) (dx dy : ℚ)
  | L (x y : ℚ)
  | Lr (dx dy : ℚ)
  | Z
  deriving DecidableEq

/-- Data class holding the four pathspecs of a rendered QR pattern
(source class `Contour`). -/
structure Contour where
  pdpOuter : List Tok := []
  pdpInner : List Tok := []
  dots : List Tok := []
  shapes : List Tok := []
  deriving DecidableEq

/-- Data class holding a rectangular bitmask (source class `Bitmask`).
The constructor wipes the backing array to `false`; we model the array as
a total boolean function on in-range indices. -/
structure Bitmask where
  width : ℕ
  height : ℕ
  data : ℕ → ℕ → Bool

/-- `Bitmask.get` for the in-range/integer case: out-of-range reads
return `false` (source lines 76–79).  The tracer only ever calls `get`
with integer coordinates, so this total integer-level accessor is the one
used by the engine. -/
def Bitmask.get (bm : Bitmask) (x y : ℤ) : Bool :=
  if x < 0 ∨ x ≥ (bm.width : ℤ) ∨ y < 0 ∨ y ≥ (bm.height : ℤ) then false
  else bm.data x.toNat y.toNat

/-- The JS-boundary `Bitmask.get`, including the `Number.isInteger`
guard (source lines 72–80): non-integer arguments throw, before the
out-of-range check.  A rational is a JS integer iff its denominator is 1. -/
def Bitmask.getJs (bm : Bitmask) (x y : ℚ) : Except String Bool :=
  if ¬(x.den = 1 ∧ y.den = 1) then
    .error "Bitmask: x and y must be integers"
  else
    .ok (bm.get x.num y.num)

/-- LCG modulus `0x80000000` (source line 111). -/
def prngM : ℕ := 0x80000000

/-- LCG multiplier (source line 112). -/
def prngA : ℕ := 1103515245

/-- LCG increment (source line 113). -/
def prngC : ℕ := 12345

/-- One LCG state update: `state = (a * state + c) % m` (source line 117). -/
def prngNext (s : ℕ) : ℕ := (prngA * s + prngC) % prngM

/-- The value returned by `PRNG.next()` after the state update:
`state / (m - 1)` (source line 118). -/
def prngVal (s : ℕ) : ℚ := (s : ℚ) / ((prngM : ℚ) - 1)

/-- Abstraction of the JS `Math`/formatting operations used by the mosaic
style: `Math.cos`, `Math.sin` and `x.toPrecision(3)` (parsed back as the
number it denotes).  All theorems about the mosaic style are proved for
every interpretation of these. -/
structure JsMath where
  cos : ℚ → ℚ
  sin : ℚ → ℚ
  prec3 : ℚ → ℚ

/-- A trivial interpretation of `JsMath`, used to instantiate theorems at
concrete inputs where the conclusion does not depend on the
interpretation. -/
def jmId : JsMath := ⟨id, id, id⟩

/-- The exact value of the IEEE-754 double `Math.PI`. -/
def jsPI : ℚ := 884279719003555 / 281474976710656

/-! ## compactPathSpec (source lines 222–238) -/

/-- One accumulator step of `compactPathSpec`: if the incoming token and
the last emitted token are hops on the same axis, merge them by summing
deltas, else append.  The accumulator is kept reversed (head = last
emitted token). -/
def compactStep (acc : List Tok) (step : Tok) : List Tok :=
  match acc, step with
  | Tok.H d1 :: rest, Tok.H d2 => Tok.H (d1 + d2) :: rest
  | Tok.V d1 :: rest, Tok.V d2 => Tok.V (d1 + d2) :: rest
  | _, _ => step :: acc

/-- `compactPathSpec` (source lines 222–238): merges runs of adjacent
same-axis hops into single hops. -/
def compactPathSpec (old : List Tok) : List Tok :=
  match old with
  | [] => []
  | t0 :: rest => (rest.foldl compactStep [t0]).reverse

/-! ## addJitterToPathSpec (source lines 199–220) -/

/-- One step of the jitterer: `M` resets the tracked position, a hop
advances it and emits an absolute `L` at the position perturbed on both
axes by `(next()*2-1)*jitterValue` (x drawn first), every other token is
passed through.  State: (PRNG state, current position). -/
def jitterStep (jv : ℚ) (st : ℕ × (ℚ × ℚ) × List Tok) (tok : Tok) :
    ℕ × (ℚ × ℚ) × List Tok :=
  let (s, pos, acc) := st
  match tok with
  | Tok.M x y => (s, (x, y), acc ++ [Tok.M x y])
  | Tok.H d =>
      let pos' : ℚ × ℚ := (pos.1 + d, pos.2)
      let s1 := prngNext s
      let jx := pos'.1 + (prngVal s1 * 2 - 1) * jv
      let s2 := prngNext s1
      let jy := pos'.2 + (prngVal s2 * 2 - 1) * jv
      (s2, pos', acc ++ [Tok.L jx jy])
  | Tok.V d =>
      let pos' : ℚ × ℚ := (pos.1, pos.2 + d)
      let s1 := prngNext s
      let jx := pos'.1 + (prngVal s1 * 2 - 1) * jv
      let s2 := prngNext s1
      let jy := pos'.2 + (prngVal s2 * 2 - 1) * jv
      (s2, pos', acc ++ [Tok.L jx jy])
  | t => (s, pos, acc ++ [t])

/-- `addJitterToPathSpec` (source lines 199–220).  Returns the new path
together with the PRNG state after the pass (the source mutates the
shared `prng` object; we thread its state).  The initial current
position is `[null, null]` in the source and is never read before the
first `M` on the engine's inputs; it is modelled as `(0, 0)`. -/
def addJitterToPathSpec (old : List Tok) (jv : ℚ) (s : ℕ) :
    List Tok × ℕ :=
  let r := old.foldl (jitterStep jv) (s, (0, 0), [])
  (r.2.2, r.1)

/-! ## makePathSpecRound (source lines 124–197) -/

/-- The peephole merge at the end of every loop iteration of
`makePathSpecRound` (source lines 188–194): if the two most recently
pushed tokens are hops on the same axis, replace them by their sum.  The
accumulator is reversed (head = most recent). -/
def roundPeep (acc : List Tok) : List Tok :=
  match acc with
  | Tok.H d1 :: Tok.H d2 :: rest => Tok.H (d1 + d2) :: rest
  | Tok.V d1 :: Tok.V d2 :: rest => Tok.V (d1 + d2) :: rest
  | _ => acc

/-- The twelve adjacent-pair rewrites of `makePathSpecRound` (source
lines 152–187): straight runs keep one hop per pair, axis changes become
quarter arcs with the tabulated sweep flags; any other pair pushes
nothing. -/
def roundPush (t : Tok) (next : Option Tok) : Option Tok :=
  match t, next with
  | Tok.H 1, some (Tok.H 1) => some (Tok.H 1)
  | Tok.H (-1), some (Tok.H (-1)) => some (Tok.H (-1))
  | Tok.V 1, some (Tok.V 1) => some (Tok.V 1)
  | Tok.V (-1), some (Tok.V (-1)) => some (Tok.V (-1))
  | Tok.H 1, some (Tok.V 1) => some (Tok.A true (1/2) (1/2))
  | Tok.H 1, some (Tok.V (-1)) => some (Tok.A false (1/2) (-(1/2)))
  | Tok.H (-1), some (Tok.V 1) => some (Tok.A false (-(1/2)) (1/2))
  | Tok.H (-1), some (Tok.V (-1)) => some (Tok.A true (-(1/2)) (-(1/2)))
  | Tok.V 1, some (Tok.H 1) => some (Tok.A false (1/2) (1/2))
  | Tok.V 1, some (Tok.H (-1)) => some (Tok.A true (-(1/2)) (1/2))
  | Tok.V (-1), some (Tok.H 1) => some (Tok.A true (1/2) (-(1/2)))
  | Tok.V (-1), some (Tok.H (-1)) => some (Tok.A false (-(1/2)) (-(1/2)))
  | _, _ => none

/-- The body of one `makePathSpecRound` loop iteration after the `M`
handling, operating on the suffix starting at the current index: the `z`
branch (source lines 140–151, which `continue`s past the pair rewrites),
the pair rewrites and the closing peephole (188–194).  `inner` is the
`isInnerContour` flag.  Returns the updated accumulator (reversed). -/
def roundBody (l : List Tok) (inner : Bool) (acc : List Tok) : List Tok :=
  match l with
  | [] => acc
  | t :: rest =>
      if t = Tok.Z then
        Tok.Z :: (if inner then Tok.A false (-(1/2)) (1/2)
                  else Tok.A true (1/2) (-(1/2))) :: acc
      else
        match roundPush t rest.head? with
        | some tk => roundPeep (tk :: acc)
        | none => roundPeep acc

/-- The iteration structure of `makePathSpecRound`'s `for` loop.  A
normal iteration runs `roundBody` on the suffix at the current index and
moves one token forward.  An iteration whose current token is `M` parses
it, shifts the start by 0.5 along the axis of the following hop (x+0.5
after `h`, setting `isInnerContour = false`; y+0.5 after `v`, setting it
`true`), pushes the shifted `M`, advances the index past the `M`
(`i++`, source line 138) and then falls through to the same-iteration
`z`/pair/peephole handling of the following token.  (When an `M` is the
final token the source would fault reading `oldPathSpec[i+1]`; that case
is unreachable on the engine's loop-shaped inputs and is modelled as an
unshifted `M`.) -/
def roundGo (l : List Tok) (inner : Bool) (acc : List Tok) : List Tok :=
  match l with
  | [] => acc
  | Tok.M x y :: rest =>
      match rest with
      | Tok.H d :: rest' =>
          roundGo rest' false
            (roundBody (Tok.H d :: rest') false (Tok.M (x + 1/2) y :: acc))
      | Tok.V d :: rest' =>
          roundGo rest' true
            (roundBody (Tok.V d :: rest') true (Tok.M x (y + 1/2) :: acc))
      | t :: rest' =>
          roundGo rest' inner (roundBody (t :: rest') inner (Tok.M x y :: acc))
      | [] => Tok.M x y :: acc
  | t :: rest => roundGo rest inner (roundBody (t :: rest) inner acc)

/-- `makePathSpecRound` (source lines 124–197): rounds the corners of a
segmented pathspec. -/
def makePathSpecRound (old : List Tok) : List Tok :=
  (roundGo old false []).reverse

/-! ## The boundary tracer (`calculateShapeContour`, source lines 297–428) -/

/-- A vertex of the corner lattice. -/
abbrev Vtx := ℤ × ℤ

/-- The per-vertex direction records (`corners` in the source): at each
vertex an insertion-ordered association list from direction to next
vertex, mirroring a JS object whose `Object.keys` order is insertion
order. -/
def Corners := Vtx → List (Dir × Vtx)

/-- Association-list lookup by direction (JS property read). -/
def assocFind (d : Dir) : List (Dir × Vtx) → Option Vtx
  | [] => none
  | (d', v) :: rest => if d' = d then some v else assocFind d rest

/-- Read `corners[cy * width + cx][d]`. -/
def lookupEntry (m : Corners) (p : Vtx) (d : Dir) : Option Vtx :=
  assocFind d (m p)

/-- Write `corners[cy * width + cx][d] = v` (a fresh key appends in JS
insertion order; the tracer only ever writes absent keys). -/
def setEntry (m : Corners) (p : Vtx) (d : Dir) (v : Vtx) : Corners :=
  fun p' => if p' = p then m p ++ [(d, v)] else m p'

/-- `delete corners[cy * width + cx][d]`. -/
def delEntry (m : Corners) (p : Vtx) (d : Dir) : Corners :=
  fun p' => if p' = p then (m p).filter (fun e => ¬(e.1 = d)) else m p'

/-- The empty direction map. -/
def emptyCorners : Corners := fun _ => []

/-- The direction-dependent branch table of the builder walk (source
lines 318–358): given the current vertex and travel direction, the next
vertex recorded for this vertex together with the updated travel
direction.  Returns `none` when none of the three guards of the source's
branch fires (provably impossible: the guards are exhaustive, see
`stepDir_isSome`); the source would then `break`. -/
def stepDir (b : Bitmask) (cx cy : ℤ) : Dir → Option (Vtx × Dir)
  | Dir.n =>
      if b.get cx (cy - 1) && !b.get (cx - 1) (cy - 1) then
        some ((cx, cy - 1), Dir.n)
      else if !b.get cx (cy - 1) then
        some ((cx + 1, cy), Dir.e)
      else if b.get (cx - 1) (cy - 1) && b.get cx (cy - 1) then
        some ((cx - 1, cy), Dir.w)
      else none
  | Dir.e =>
      if b.get cx cy && !b.get cx (cy - 1) then
        some ((cx + 1, cy), Dir.e)
      else if !b.get cx cy then
        some ((cx, cy + 1), Dir.s)
      else if b.get cx cy && b.get cx (cy - 1) then
        some ((cx, cy - 1), Dir.n)
      else none
  | Dir.s =>
      if b.get (cx - 1) cy && !b.get cx cy then
        some ((cx, cy + 1), Dir.s)
      else if !b.get (cx - 1) cy then
        some ((cx - 1, cy), Dir.w)
      else if b.get cx cy && b.get (cx - 1) cy then
        some ((cx + 1, cy), Dir.e)
      else none
  | Dir.w =>
      if b.get (cx - 1) (cy - 1) && !b.get (cx - 1) cy then
        some ((cx - 1, cy), Dir.w)
      else if !b.get (cx - 1) (cy - 1) then
        some ((cx, cy - 1), Dir.n)
      else if b.get (cx - 1) cy && b.get (cx - 1) (cy - 1) then
        some ((cx, cy + 1), Dir.s)
      else none

/-- The builder's inner `while` walk (source lines 316–363): while the
current vertex has no record for the current direction, record the
branch-table step and move along it.  Fuel bounds the iteration count;
all uses supply fuel beyond any reachable walk length. -/
def builderWalk (b : Bitmask) : ℕ → Vtx → Dir → Corners → Corners
  | 0, _, _, m => m
  | fuel + 1, p, d, m =>
      if (lookupEntry m p d).isSome then m
      else
        match stepDir b p.1 p.2 d with
        | none => m
        | some (nxt, d') => builderWalk b fuel nxt d' (setEntry m p d nxt)

/-- Fuel used for both tracer loops; far above the number of vertex
direction slots of the grid. -/
def tracerFuel (bm : Bitmask) : ℕ := 4 * (bm.width + 2) * (bm.height + 2) + 4

/-- The builder's per-vertex body (source lines 309–315): skip vertices
that already have an `'e'` record, vertices whose four surrounding cells
agree, and vertices that are not the top-left convex corner of a filled
run; otherwise start a walk east. -/
def builderVertex (b : Bitmask) (fuel : ℕ) (m : Corners) (x y : ℤ) : Corners :=
  if (lookupEntry m (x, y) Dir.e).isSome then m
  else if b.get x y == b.get (x - 1) y && b.get x y == b.get x (y - 1)
      && b.get x y == b.get (x - 1) (y - 1) then m
  else if b.get x (y - 1) || !b.get x y then m
  else builderWalk b fuel (x, y) Dir.e m

/-- First pass of `calculateShapeContour` (source lines 302–365): build
the full direction map by scanning the vertex lattice in row-major
order. -/
def buildCorners (b : Bitmask) : Corners :=
  (List.range (b.height + 1)).foldl
    (fun m y =>
      (List.range (b.width + 1)).foldl
        (fun m x => builderVertex b (tracerFuel b) m (x : ℤ) (y : ℤ)) m)
    emptyCorners

/-- The extraction walk (source lines 382–407): while the current vertex
has a record for the current direction, consume it, emit a unit hop
toward the recorded vertex, and re-derive the travel direction from the
movement.  Returns the depleted map and the raw path (`MoveTo` plus unit
hops).  The `(d, Tok.H 0)` default of the four-way comparison is
unreachable (a record never points at its own vertex). -/
def extractWalk (fuel : ℕ) (p : Vtx) (d : Dir) (m : Corners) (path : List Tok) :
    Corners × List Tok :=
  match fuel with
  | 0 => (m, path)
  | fuel + 1 =>
      match lookupEntry m p d with
      | none => (m, path)
      | some nxt =>
          let m' := delEntry m p d
          let step : Dir × Tok :=
            if nxt.1 > p.1 then (Dir.e, Tok.H 1)
            else if nxt.1 < p.1 then (Dir.w, Tok.H (-1))
            else if nxt.2 > p.2 then (Dir.s, Tok.V 1)
            else if nxt.2 < p.2 then (Dir.n, Tok.V (-1))
            else (d, Tok.H 0)
          extractWalk fuel nxt step.1 m' (path ++ [step.2])

/-- `width > 16 && height > 16`: the size gate for both the PDP loops
and the PDP-zone skips (source lines 250, 368, 436). -/
def bigGrid (bm : Bitmask) : Bool :=
  decide (bm.width > 16) && decide (bm.height > 16)

/-- The three-corner PDP zone test (source lines 252–254 and 370–372). -/
def inPdpZone (bm : Bitmask) (margin : ℤ) (x y : ℤ) : Bool :=
  (decide (x < 7 + margin) && decide (y < 7 + margin)) ||
  (decide (x < 7 + margin) && decide (y > (bm.height : ℤ) - margin - 7)) ||
  (decide (x > (bm.width : ℤ) - margin - 7) && decide (y < 7 + margin))

/-- `true` iff the token is a `'v...'` hop (`startsWith('v')`). -/
def isVTok : Tok → Bool
  | Tok.V _ => true
  | _ => false

/-- Close and classify one raw extracted path (source lines 408–424):
discard degenerate paths of at most two tokens; drop the final hop when
the token count (MoveTo included) is even; append `z`; paths of exactly
six tokens whose first hop is horizontal go to `dots`, the rest to
`shapes`.  Returns `none` for discarded paths. -/
def emitLoop (raw : List Tok) : Option (Bool × List Tok) :=
  if raw.length ≤ 2 then none
  else
    let adjusted := if raw.length % 2 = 0 then raw.dropLast else raw
    let path := adjusted ++ [Tok.Z]
    some (path.length = 6 && !isVTok (path.getD 1 Tok.Z), path)

/-- The extraction's per-vertex body (source lines 366–425): skip PDP-zone
vertices on large grids and vertices without records; otherwise walk from
the vertex's first recorded direction (JS key insertion order) and emit
the closed loop into `dots` or `shapes`. -/
def extractVertex (bm : Bitmask) (margin : ℤ) (fuel : ℕ)
    (st : Corners × List Tok × List Tok) (x y : ℤ) :
    Corners × List Tok × List Tok :=
  let (m, dts, shps) := st
  if bigGrid bm && inPdpZone bm margin x y then st
  else
    match (m (x, y)).head? with
    | none => st
    | some (d0, _) =>
        let r := extractWalk fuel (x, y) d0 m
          [Tok.M ((x : ℚ) + (margin : ℚ)) ((y : ℚ) + (margin : ℚ))]
        match emitLoop r.2 with
        | none => (r.1, dts, shps)
        | some (isDot, path) =>
            if isDot then (r.1, dts ++ path, shps)
            else (r.1, dts, shps ++ path)

/-- `calculateShapeContour` (source lines 297–428): trace all contiguous
shapes of the bitmask into closed loops, classified into `dots` and
`shapes`.  The PDP pathspecs stay empty here (handled by the caller). -/
def calculateShapeContour (bm : Bitmask) (margin : ℤ) : Contour :=
  let m := buildCorners bm
  let r := (List.range (bm.height + 1)).foldl
    (fun st y =>
      (List.range (bm.width + 1)).foldl
        (fun st x => extractVertex bm margin (tracerFuel bm) st (x : ℤ) (y : ℤ)) st)
    (m, [], [])
  { pdpOuter := [], pdpInner := [], dots := r.2.1, shapes := r.2.2 }

/-! ## calculateDotsOrMosaicContour (source lines 242–292) -/

/-- The mosaic rotation angle derived from a post-update PRNG state:
`(prng.next() * 2 - 1) * maxAngle` with `maxAngle = Math.PI * 0.03`
(source lines 271–272). -/
def mosaicAngle (s : ℕ) : ℚ := (prngVal s * 2 - 1) * (jsPI * (3 / 100))

/-- One filled cell's pathspec in the `dots` style (source lines
260–266): a unit circle of four quarter arcs starting at the top-center
of the cell. -/
def dotPathSpec (x y : ℕ) (margin : ℤ) : List Tok :=
  [Tok.M ((x : ℚ) + (margin : ℚ) + 1/2) ((y : ℚ) + (margin : ℚ)),
   Tok.A true (1/2) (1/2), Tok.A true (-(1/2)) (1/2),
   Tok.A true (-(1/2)) (-(1/2)), Tok.A true (1/2) (-(1/2)), Tok.Z]

/-- One filled cell's pathspec in the `mosaic` style (source lines
268–281): a square of relative size 0.9 rotated by `angle`, emitted as a
`MoveTo` plus four relative lines.  The source's
`.replaceAll('--', '')` on the formatted strings is sign algebra: a
leading `'l-'` denotes negation of the formatted value. -/
def mosaicPathSpec (jm : JsMath) (x y : ℕ) (margin : ℤ) (angle : ℚ) : List Tok :=
  let size : ℚ := 9/10
  let c := jm.cos angle
  let s := jm.sin angle
  let topLeftX : ℚ := (x : ℚ) + (margin : ℚ) + 1/2 + ((1 - size)/2) - (1/2)*c + (1/2)*s
  let topLeftY : ℚ := (y : ℚ) + (margin : ℚ) + 1/2 + ((1 - size)/2) + (1/2)*c - (1/2)*s - 1
  [Tok.M (jm.prec3 topLeftX) (jm.prec3 topLeftY),
   Tok.Lr (jm.prec3 (size * c)) (jm.prec3 (size * s)),
   Tok.Lr (-(jm.prec3 (size * s))) (jm.prec3 (size * c)),
   Tok.Lr (-(jm.prec3 (size * c))) (-(jm.prec3 (size * s))),
   Tok.Lr (jm.prec3 (size * s)) (-(jm.prec3 (size * c))), Tok.Z]

/-- The per-cell body of `calculateDotsOrMosaicContour` (source lines
248–289), threading the PRNG state: skip PDP-zone cells on large grids;
for a filled cell emit the style's pathspec, into `dots` when the cell
has no filled orthogonal neighbour, else into `shapes`. -/
def dotsMosaicCell (jm : JsMath) (bm : Bitmask) (margin : ℤ) (style : String)
    (st : ℕ × List Tok × List Tok) (x y : ℕ) : ℕ × List Tok × List Tok :=
  let (s, dts, shps) := st
  if bigGrid bm && inPdpZone bm margin x y then st
  else if bm.get x y then
    let r : ℕ × List Tok :=
      if style == "dots" then (s, dotPathSpec x y margin)
      else
        let s1 := prngNext s
        (s1, mosaicPathSpec jm x y margin (mosaicAngle s1))
    if !bm.get ((x : ℤ) - 1) y && !bm.get ((x : ℤ) + 1) y
        && !bm.get x ((y : ℤ) - 1) && !bm.get x ((y : ℤ) + 1) then
      (r.1, dts ++ r.2, shps)
    else (r.1, dts, shps ++ r.2)
  else st

/-- `calculateDotsOrMosaicContour` generalized over the PRNG seed (the
source hardcodes `new PRNG(1)` at line 247; `calculateDotsOrMosaicContour`
below instantiates the seed at 1). -/
def calculateDotsOrMosaicContourSeeded (jm : JsMath) (bm : Bitmask) (margin : ℤ)
    (style : String) (seed : ℕ) : Except String Contour :=
  if ¬(style = "dots") ∧ ¬(style = "mosaic") then
    .error ("Unsupported dots/mosaic render style: " ++ style)
  else
    let r := (List.range bm.height).foldl
      (fun st y =>
        (List.range bm.width).foldl
          (fun st x => dotsMosaicCell jm bm margin style st x y) st)
      (seed, [], [])
    .ok { pdpOuter := [], pdpInner := [], dots := r.2.1, shapes := r.2.2 }

/-- `calculateDotsOrMosaicContour` (source lines 242–292). -/
def calculateDotsOrMosaicContour (jm : JsMath) (bm : Bitmask) (margin : ℤ)
    (style : String) : Except String Contour :=
  calculateDotsOrMosaicContourSeeded jm bm margin style 1

/-! ## calculateContour (source lines 434–504) and render (512–527) -/

/-- The outer PDP ring pathspec for one corner offset (source lines
443–454): the 7×7 outline and the 5×5 cut-out outline. -/
def pdpOuterSpec (o : ℤ × ℤ) : List Tok :=
  [Tok.M (o.1 : ℚ) (o.2 : ℚ)] ++ List.replicate 7 (Tok.H 1)
    ++ List.replicate 7 (Tok.V 1) ++ List.replicate 7 (Tok.H (-1))
    ++ List.replicate 7 (Tok.V (-1)) ++ [Tok.Z]
    ++ [Tok.M ((o.1 : ℚ) + 1) ((o.2 : ℚ) + 1)] ++ List.replicate 5 (Tok.V 1)
    ++ List.replicate 5 (Tok.H 1) ++ List.replicate 5 (Tok.V (-1))
    ++ List.replicate 5 (Tok.H (-1)) ++ [Tok.Z]

/-- The inner PDP square pathspec for one corner offset (source lines
455–460): the solid 3×3 outline. -/
def pdpInnerSpec (o : ℤ × ℤ) : List Tok :=
  [Tok.M ((o.1 : ℚ) + 2) ((o.2 : ℚ) + 2)] ++ List.replicate 3 (Tok.H 1)
    ++ List.replicate 3 (Tok.V 1) ++ List.replicate 3 (Tok.H (-1))
    ++ List.replicate 3 (Tok.V (-1)) ++ [Tok.Z]

/-- The three PDP corner offsets (source line 442). -/
def pdpOffsets (bm : Bitmask) (margin : ℤ) : List (ℤ × ℤ) :=
  [(margin, margin), ((bm.width : ℤ) + margin - 7, margin),
   (margin, (bm.height : ℤ) + margin - 7)]

/-- Character-list prefix test (computable model of
`String.prototype.startsWith`). -/
def leadsList : List Char → List Char → Bool
  | [], _ => true
  | _ :: _, [] => false
  | c :: cs, d :: ds => c == d && leadsList cs ds

/-- `style.startsWith('jitter-')` (source line 479), modelled on the
character lists of the strings. -/
def strStartsWith (s pre : String) : Bool :=
  leadsList pre.data s.data

/-- The sequential-threading form of the jitter branch (source lines
488–496): jitter is applied to shapes, then dots, then the inner PDP,
then the outer PDP, with one PRNG state threaded through in exactly that
order. -/
def jitterPipeline (shapes dots pi po : List Tok) (jv : ℚ) (seed : ℕ) : Contour :=
  let r1 := addJitterToPathSpec shapes jv seed
  let r2 := addJitterToPathSpec dots jv r1.2
  let r3 := addJitterToPathSpec pi jv r2.2
  let r4 := addJitterToPathSpec po jv r3.2
  { pdpOuter := r4.1, pdpInner := r3.1, dots := r2.1, shapes := r1.1 }

/-- The PDP pathspec pair `(pdpOuter, pdpInner)` built by
`calculateContour` before the style-specific tracing (source lines
436–466): empty below the size gate, else the three corner markers,
rounded for the `dots` and `rounded` styles. -/
def pdpPair (bm : Bitmask) (margin : ℤ) (style : String) : List Tok × List Tok :=
  if bigGrid bm then
    let po := (pdpOffsets bm margin).foldl (fun acc o => acc ++ pdpOuterSpec o) []
    let pi := (pdpOffsets bm margin).foldl (fun acc o => acc ++ pdpInnerSpec o) []
    if style == "dots" || style == "rounded" then
      (makePathSpecRound po, makePathSpecRound pi)
    else (po, pi)
  else ([], [])

/-- The corner-rounding application to the traced shapes and dots for
the `rounded` style (source lines 475–478). -/
def roundedPair (style : String) (shapes dots : List Tok) : List Tok × List Tok :=
  if style == "rounded" then (makePathSpecRound shapes, makePathSpecRound dots)
  else (shapes, dots)

/-- The per-style jitter amplitude (source lines 480–487):
`jitter-heavy` = 0.15, `jitter-light` = 0.07, otherwise 0. -/
def jitterJv (style : String) : ℚ :=
  if style == "jitter-heavy" then 3/20
  else if style == "jitter-light" then 7/100
  else 0

/-- The final pass of `calculateContour` (source lines 479–502): jitter
styles run the seeded jitter pipeline over the four pathspecs in the
fixed order shapes, dots, inner PDP, outer PDP; every other style
compacts all four. -/
def finishContour (style : String) (seed : ℕ) (po pi dots shapes : List Tok) : Contour :=
  if strStartsWith style "jitter-" then
    jitterPipeline shapes dots pi po (jitterJv style) seed
  else
    { pdpOuter := compactPathSpec po, pdpInner := compactPathSpec pi,
      dots := compactPathSpec dots, shapes := compactPathSpec shapes }

/-- `calculateContour` generalized over the PRNG seed used by the jitter
and mosaic passes (the source hardcodes `new PRNG(1)` at lines 247 and
488; `calculateContour` below instantiates the seed at 1). -/
def calculateContourSeeded (jm : JsMath) (bm : Bitmask) (margin : ℤ)
    (style : String) (seed : ℕ) : Except String Contour := do
  let pp := pdpPair bm margin style
  let newContour ←
    if style == "dots" || style == "mosaic" then
      calculateDotsOrMosaicContourSeeded jm bm margin style seed
    else pure (calculateShapeContour bm margin)
  let sd := roundedPair style newContour.shapes newContour.dots
  pure (finishContour style seed pp.1 pp.2 sd.2 sd.1)

/-- `calculateContour` (source lines 434–504). -/
def calculateContour (jm : JsMath) (bm : Bitmask) (margin : ℤ)
    (style : String) : Except String Contour :=
  calculateContourSeeded jm bm margin style 1

/-- The list of recognized render styles (source line 513). -/
def validStyles : List String :=
  ["basic", "rounded", "dots", "mosaic", "jitter-light", "jitter-heavy"]

/-- `render` (source lines 512–527), restricted to its computational
content: the style guard (which throws `Unsupported render style` before
anything else) followed by the contour computation.  The DOM effects
(viewBox update, child removal, path-element creation) fall outside the
shallow embedding. -/
def render (jm : JsMath) (bm : Bitmask) (style : String) : Except String Contour :=
  if ¬(validStyles.contains style) then
    .error ("Unsupported render style: " ++ style)
  else
    calculateContour jm bm 1 style

/-- Build a bitmask from a row-major list of rows (test helper; cells
outside the supplied rows are unfilled, as after `wipe(false)`). -/
def bmOfRows (w h : ℕ) (rows : List (List Bool)) : Bitmask :=
  ⟨w, h, fun x y => (rows.getD y []).getD x false⟩

/-! ## Replay semantics

Interpretation of a pathspec in the SVG path mini-language: a state is
the current position together with the current subpath start; `M` sets
both, hops/arcs/relative lines displace the position, `L` sets the
position absolutely, `z` returns to the subpath start. -/

/-- One replay step. -/
def tokMove (st : (ℚ × ℚ) × (ℚ × ℚ)) (t : Tok) : (ℚ × ℚ) × (ℚ × ℚ) :=
  match t with
  | Tok.M x y => ((x, y), (x, y))
  | Tok.H d => ((st.1.1 + (d : ℚ), st.1.2), st.2)
  | Tok.V d => ((st.1.1, st.1.2 + (d : ℚ)), st.2)
  | Tok.A _ dx dy => ((st.1.1 + dx, st.1.2 + dy), st.2)
  | Tok.L x y => ((x, y), st.2)
  | Tok.Lr dx dy => ((st.1.1 + dx, st.1.2 + dy), st.2)
  | Tok.Z => (st.2, st.2)

/-- Replay a whole token sequence from a state. -/
def replay (l : List Tok) (st : (ℚ × ℚ) × (ℚ × ℚ)) : (ℚ × ℚ) × (ℚ × ℚ) :=
  l.foldl tokMove st

/-- One step of the loop splitter: an `M` closes the pending loop and
opens a fresh one; any other token extends the pending loop.  State:
(completed loops, pending loop reversed). -/
def splitStep (st : List (List Tok) × List Tok) (t : Tok) :
    List (List Tok) × List Tok :=
  match t with
  | Tok.M x y =>
      (st.1 ++ (if st.2 = [] then [] else [st.2.reverse]), [Tok.M x y])
  | t => (st.1, t :: st.2)

/-- Split a pathspec into its loops, each starting at an `M` (the engine
only emits `M`-initial sequences). -/
def splitLoops (l : List Tok) : List (List Tok) :=
  let r := l.foldl splitStep ([], [])
  r.1 ++ (if r.2 = [] then [] else [r.2.reverse])

/-- A single loop is closed: replaying its segments from the `MoveTo`
point (with any final explicit `z` discounted, since `z` jumps back to
the start by definition) ends exactly at the start vertex. -/
def loopClosed (loop : List Tok) : Bool :=
  match loop with
  | Tok.M x y :: rest =>
      let body := if rest.getLast? = some Tok.Z then rest.dropLast else rest
      decide ((replay body ((x, y), (x, y))).1 = (x, y))
  | _ => true

/-- Every loop of a pathspec is closed. -/
def allLoopsClosed (l : List Tok) : Bool :=
  (splitLoops l).all loopClosed

/-- Number of `M` tokens, i.e. number of loops, of a pathspec. -/
def countM (l : List Tok) : ℕ :=
  l.countP (fun t => match t with | Tok.M _ _ => true | _ => false)

/-! Sanity examples (unit dot loop, as in the spec's rounding scenario). -/

/-! ## Helper lemmas -/

/-- `calculateContourSeeded` never fails: the only throw site in the
contour pipeline is the style guard of `calculateDotsOrMosaicContour`,
which its call site always satisfies. -/
theorem calculateContourSeeded_isOk (jm : JsMath) (bm : Bitmask) (margin : ℤ)
    (style : String) (seed : ℕ) :
    ∃ c, calculateContourSeeded jm bm margin style seed = .ok c := by
  by_cases hd : style = "dots"
  · subst hd; exact ⟨_, rfl⟩
  · by_cases hm : style = "mosaic"
    · subst hm; exact ⟨_, rfl⟩
    · have hbeq : (style == "dots" || style == "mosaic") = false := by
        simp [hd, hm]
      unfold calculateContourSeeded
      simp only [hbeq, Bool.false_eq_true, if_false, Except.bind, pure]
      exact ⟨_, rfl⟩

/-! ## Claim C10 -/

/-- **C10.** `Bitmask.get` with a non-integer `x` or `y` throws (before
any range consideration), and only integer out-of-range coordinates
produce the defined `false` result. -/
theorem c10_get_integer_guard (bm : Bitmask) (x y : ℚ) :
    (¬(x.den = 1 ∧ y.den = 1) →
      bm.getJs x y = .error "Bitmask: x and y must be integers") ∧
    (x.den = 1 → y.den = 1 →
      (x.num < 0 ∨ x.num ≥ (bm.width : ℤ) ∨ y.num < 0 ∨ y.num ≥ (bm.height : ℤ)) →
      bm.getJs x y = .ok false) := by
  constructor
  · intro h
    simp [Bitmask.getJs, h]
  · intro hx hy hr
    have hget : bm.get x.num y.num = false := by
      unfold Bitmask.get
      rw [if_pos hr]
    simp [Bitmask.getJs, hx, hy, hget]

/-- Witness for C10: `get(0.5, 100)` throws even though the coordinates
are far out of range, while the integer out-of-range read `get(-5, 0)`
returns `false`. -/
theorem c10_get_integer_guard_witness :
    (bmOfRows 2 2 []).getJs (1/2) 100 = .error "Bitmask: x and y must be integers" ∧
    (bmOfRows 2 2 []).getJs (-5) 0 = .ok false :=
  ⟨(c10_get_integer_guard (bmOfRows 2 2 []) (1/2) 100).1 (by decide),
   (c10_get_integer_guard (bmOfRows 2 2 []) (-5) 0).2 (by decide) (by decide)
     (by decide)⟩

/-! ## Claim C8 -/

/-- **C8 (counterexample).** For the 3×3 grid with only the center cell
filled, `Basic` style, margin 1, the single dot loop starts at `M2 2` —
the margin offsets the coordinates — and is not the loop `M1 1 h1 v1 h-1
v-1 z` stated by the claim. -/
theorem c8_center_dot_counterexample :
    (calculateContour jmId
        (bmOfRows 3 3 [[false, false, false], [false, true, false], [false, false, false]])
        1 "basic").toOption =
      some { pdpOuter := [], pdpInner := [],
             dots := [Tok.M 2 2, Tok.H 1, Tok.V 1, Tok.H (-1), Tok.V (-1), Tok.Z],
             shapes := [] } ∧
    [Tok.M 2 2, Tok.H 1, Tok.V 1, Tok.H (-1), Tok.V (-1), Tok.Z] ≠
      [Tok.M 1 1, Tok.H 1, Tok.V 1, Tok.H (-1), Tok.V (-1), Tok.Z] := by decide

/-- **C8 (amended).** For the 3×3 grid with only the center cell filled,
`Basic` style, margin 1, the contour has empty `shapes` and a `dots`
sequence of exactly one loop `M2 2 h1 v1 h-1 v-1 z` (the claim's `M1 1`
start forgets the margin offset). -/
theorem c8_center_dot :
    (calculateContour jmId
        (bmOfRows 3 3 [[false, false, false], [false, true, false], [false, false, false]])
        1 "basic").toOption =
      some { pdpOuter := [], pdpInner := [],
             dots := [Tok.M 2 2, Tok.H 1, Tok.V 1, Tok.H (-1), Tok.V (-1), Tok.Z],
             shapes := [] } := by decide

/-! ## Claim C6 -/

/-- **C6 (counterexample).** On the 3×3 center-dot grid the one traced
raw path has five hops — an odd count — and the final hop *is* dropped
before `z` is appended, contradicting the claim that a hop is dropped
exactly when the count is even. -/
theorem c6_drop_parity_counterexample :
    (buildCorners (bmOfRows 3 3 [[false, false, false], [false, true, false], [false, false, false]])
        (1, 1)).head? = some (Dir.e, (2, 1)) ∧
    (extractWalk
        (tracerFuel (bmOfRows 3 3 [[false, false, false], [false, true, false], [false, false, false]]))
        (1, 1) Dir.e
        (buildCorners (bmOfRows 3 3 [[false, false, false], [false, true, false], [false, false, false]]))
        [Tok.M 2 2]).2 =
      [Tok.M 2 2, Tok.H 1, Tok.V 1, Tok.H (-1), Tok.V (-1), Tok.H 1] ∧
    ¬ Even ([Tok.M 2 2, Tok.H 1, Tok.V 1, Tok.H (-1), Tok.V (-1), Tok.H 1].length - 1) ∧
    emitLoop [Tok.M 2 2, Tok.H 1, Tok.V 1, Tok.H (-1), Tok.V (-1), Tok.H 1] =
      some (true, [Tok.M 2 2, Tok.H 1, Tok.V 1, Tok.H (-1), Tok.V (-1), Tok.Z]) := by
  decide

/-- **C6 (amended).** During loop extraction the final hop of a raw
traced path (a `MoveTo` followed by its hops) is dropped before `z` is
appended exactly when the accumulated hop count is *odd* — equivalently,
when the token count including the `MoveTo` is even (`newPathSpec.length
% 2 == 0` in the source); when the hop count is even no hop is dropped. -/
theorem c6_drop_parity (raw : List Tok) (h : 3 ≤ raw.length) :
    (Odd (raw.length - 1) →
      (emitLoop raw).map Prod.snd = some (raw.dropLast ++ [Tok.Z])) ∧
    (Even (raw.length - 1) →
      (emitLoop raw).map Prod.snd = some (raw ++ [Tok.Z])) := by
  have hlen : ¬ raw.length ≤ 2 := by omega
  constructor
  · intro hodd
    have : raw.length % 2 = 0 := by
      rcases hodd with ⟨k, hk⟩
      omega
    simp [emitLoop, hlen, this]
  · intro heven
    have : raw.length % 2 = 1 := by
      rcases heven with ⟨k, hk⟩
      omega
    simp [emitLoop, hlen, this]

/-- Witness for C6 (amended): the five-hop raw path of the center-dot
trace is closed by dropping its final hop. -/
theorem c6_drop_parity_witness :
    (emitLoop [Tok.M 2 2, Tok.H 1, Tok.V 1, Tok.H (-1), Tok.V (-1), Tok.H 1]).map Prod.snd =
      some ([Tok.M 2 2, Tok.H 1, Tok.V 1, Tok.H (-1), Tok.V (-1), Tok.H 1].dropLast ++ [Tok.Z]) :=
  (c6_drop_parity [Tok.M 2 2, Tok.H 1, Tok.V 1, Tok.H (-1), Tok.V (-1), Tok.H 1]
    (by decide)).1 (by decide)

/-! ## Claim C1 -/

/-- **C1 (counterexample).** `calculateContour` does not validate the
style name: called with the unrecognized style `"pointy"` it succeeds
(falling through to the shape tracer and the compaction pipeline)
instead of failing with an `UnsupportedStyle` error. -/
theorem c1_unknown_style_counterexample :
    (calculateContour jmId (bmOfRows 1 1 [[true]]) 1 "pointy").toOption =
      some { pdpOuter := [], pdpInner := [],
             dots := [Tok.M 1 1, Tok.H 1, Tok.V 1, Tok.H (-1), Tok.V (-1), Tok.Z],
             shapes := [] } := by decide

/-- **C1 (amended).** The `UnsupportedStyle` rejection happens at the
`render` boundary, before any contour is computed; `calculateContour`
itself never throws — for every grid, margin and style (the six
recognized ones and any other string alike) it returns a contour, empty
grids included. -/
theorem c1_style_errors (jm : JsMath) (bm : Bitmask) (margin : ℤ) (style : String) :
    (∃ c, calculateContour jm bm margin style = .ok c) ∧
    (validStyles.contains style = false →
      render jm bm style = .error ("Unsupported render style: " ++ style)) := by
  constructor
  · exact calculateContourSeeded_isOk jm bm margin style 1
  · intro h
    unfold render
    rw [if_pos (show ¬validStyles.contains style = true by rw [h]; simp)]

/-- Witness for C1 (amended): the unrecognized style `"pointy"` is
rejected by `render` yet accepted by `calculateContour`. -/
theorem c1_style_errors_witness :
    (∃ c, calculateContour jmId (bmOfRows 1 1 [[true]]) 1 "pointy" = .ok c) ∧
    render jmId (bmOfRows 1 1 [[true]]) "pointy" =
      .error ("Unsupported render style: " ++ "pointy") :=
  ⟨(c1_style_errors jmId (bmOfRows 1 1 [[true]]) 1 "pointy").1,
   (c1_style_errors jmId (bmOfRows 1 1 [[true]]) 1 "pointy").2 (by decide)⟩

/-! ## Claim C9 -/

/-- **C9 (counterexample).** In `Mosaic` style on a 9×1 grid with five
isolated filled cells, the program emits exactly the five rotated
squares below, and the fifth cell's rotation angle exceeds 2/25 rad
(≈ 4.58°) in absolute value — far above the claimed bound of
approximately 1.7 degrees (0.0297 rad). -/
theorem c9_mosaic_angle_counterexample :
    ((calculateDotsOrMosaicContour jmId
        (bmOfRows 9 1 [[true, false, true, false, true, false, true, false, true]])
        1 "mosaic").toOption.map Contour.dots) =
      some (mosaicPathSpec jmId 0 0 1 (mosaicAngle 1103527590) ++
            mosaicPathSpec jmId 2 0 1 (mosaicAngle 377401575) ++
            mosaicPathSpec jmId 4 0 1 (mosaicAngle 662824084) ++
            mosaicPathSpec jmId 6 0 1 (mosaicAngle 1147902781) ++
            mosaicPathSpec jmId 8 0 1 (mosaicAngle 2035015474)) ∧
    (2 / 25 : ℚ) < |mosaicAngle 2035015474| := by decide

/-- **C9 (amended).** Every square emitted by the mosaic style has fixed
relative size 0.9 of a cell, and its rotation angle — drawn from the
deterministic generator — is bounded in absolute value by
`maxAngle = Math.PI * 0.03` ≈ 0.0942 rad ≈ 5.4 degrees (not ≈ 1.7°). -/
theorem c9_mosaic_angle_bound :
    (∀ (s : ℕ), s < prngM → |mosaicAngle s| ≤ jsPI * (3 / 100)) ∧
    (∀ (jm : JsMath) (x y : ℕ) (margin : ℤ) (angle : ℚ),
      mosaicPathSpec jm x y margin angle =
        [Tok.M (jm.prec3 ((x : ℚ) + (margin : ℚ) + 1/2 + ((1 - 9/10)/2)
            - (1/2) * jm.cos angle + (1/2) * jm.sin angle))
          (jm.prec3 ((y : ℚ) + (margin : ℚ) + 1/2 + ((1 - 9/10)/2)
            + (1/2) * jm.cos angle - (1/2) * jm.sin angle - 1)),
         Tok.Lr (jm.prec3 (9/10 * jm.cos angle)) (jm.prec3 (9/10 * jm.sin angle)),
         Tok.Lr (-(jm.prec3 (9/10 * jm.sin angle))) (jm.prec3 (9/10 * jm.cos angle)),
         Tok.Lr (-(jm.prec3 (9/10 * jm.cos angle))) (-(jm.prec3 (9/10 * jm.sin angle))),
         Tok.Lr (jm.prec3 (9/10 * jm.sin angle)) (-(jm.prec3 (9/10 * jm.cos angle))),
         Tok.Z]) := by
  constructor
  · intro s hs
    have hm1 : (0 : ℚ) < (prngM : ℚ) - 1 := by norm_num [prngM]
    have hu0 : 0 ≤ prngVal s := by
      unfold prngVal
      positivity
    have hu1 : prngVal s ≤ 1 := by
      unfold prngVal
      rw [div_le_one hm1]
      have : (s : ℚ) ≤ (prngM : ℚ) - 1 := by
        have : s ≤ prngM - 1 := by omega
        calc (s : ℚ) ≤ ((prngM - 1 : ℕ) : ℚ) := by exact_mod_cast this
          _ = (prngM : ℚ) - 1 := by norm_num [prngM]
      exact this
    have hr : |prngVal s * 2 - 1| ≤ 1 := by
      rw [abs_le]
      constructor <;> linarith
    have hK : (0 : ℚ) ≤ jsPI * (3 / 100) := by norm_num [jsPI]
    calc |mosaicAngle s| = |prngVal s * 2 - 1| * |jsPI * (3 / 100)| := by
          unfold mosaicAngle
          exact abs_mul _ _
      _ = |prngVal s * 2 - 1| * (jsPI * (3 / 100)) := by rw [abs_of_nonneg hK]
      _ ≤ 1 * (jsPI * (3 / 100)) := by
          exact mul_le_mul_of_nonneg_right hr hK
      _ = jsPI * (3 / 100) := one_mul _
  · intro jm x y margin angle
    rfl

/-- Witness for C9 (amended): the bound at the fifth consumed generator
state of the counterexample grid. -/
theorem c9_mosaic_angle_bound_witness :
    |mosaicAngle 2035015474| ≤ jsPI * (3 / 100) :=
  c9_mosaic_angle_bound.1 2035015474 (by decide)

/-! ## Claim C7 -/

/-- The peephole never merges across an `M` token: a trailing `M` of the
accumulator survives `roundPeep`. -/
theorem roundPeep_suffix (l : List Tok) (a b : ℚ) :
    ∃ X, roundPeep (l ++ [Tok.M a b]) = X ++ [Tok.M a b] := by
  match l with
  | [] => exact ⟨[], rfl⟩
  | [t] =>
      refine ⟨[t], ?_⟩
      cases t <;> rfl
  | t1 :: t2 :: rest =>
      cases t1 <;> cases t2 <;>
        first
          | exact ⟨_ :: rest, rfl⟩
          | exact ⟨_ :: _ :: rest, rfl⟩

/-- A trailing `M` of the accumulator survives one loop-iteration body. -/
theorem roundBody_suffix (l : List Tok) (inner : Bool) (acc : List Tok) (a b : ℚ) :
    ∃ X, roundBody l inner (acc ++ [Tok.M a b]) = X ++ [Tok.M a b] := by
  cases l with
  | nil => exact ⟨acc, rfl⟩
  | cons t rest =>
      by_cases hz : t = Tok.Z
      · subst hz
        exact ⟨Tok.Z :: (if inner then Tok.A false (-(1/2)) (1/2)
                  else Tok.A true (1/2) (-(1/2))) :: acc, rfl⟩
      · rw [show roundBody (t :: rest) inner (acc ++ [Tok.M a b]) =
            (match roundPush t rest.head? with
             | some tk => roundPeep (tk :: (acc ++ [Tok.M a b]))
             | none => roundPeep (acc ++ [Tok.M a b])) by
              simp only [roundBody]
              rw [if_neg hz]]
        cases roundPush t rest.head? with
        | some tk => exact roundPeep_suffix (tk :: acc) a b
        | none => exact roundPeep_suffix acc a b

/-- A trailing `M` of the accumulator survives the whole rounding loop. -/
theorem roundGo_suffix (n : ℕ) (l : List Tok) (hl : l.length ≤ n) (inner : Bool)
    (acc : List Tok) (a b : ℚ) :
    ∃ X, roundGo l inner (acc ++ [Tok.M a b]) = X ++ [Tok.M a b] := by
  induction n generalizing l inner acc with
  | zero =>
      have : l = [] := by
        cases l with
        | nil => rfl
        | cons t rest => simp at hl
      subst this
      exact ⟨acc, rfl⟩
  | succ n ih =>
      match l with
      | [] => exact ⟨acc, rfl⟩
      | Tok.M x y :: rest =>
          match rest with
          | Tok.H d :: rest' =>
              obtain ⟨X1, hX1⟩ :=
                roundBody_suffix (Tok.H d :: rest') false (Tok.M (x + 1/2) y :: acc) a b
              have hred : roundGo (Tok.M x y :: Tok.H d :: rest') inner (acc ++ [Tok.M a b]) =
                  roundGo rest' false
                    (roundBody (Tok.H d :: rest') false
                      (Tok.M (x + 1/2) y :: (acc ++ [Tok.M a b]))) := rfl
              rw [hred, show Tok.M (x + 1/2) y :: (acc ++ [Tok.M a b]) =
                    (Tok.M (x + 1/2) y :: acc) ++ [Tok.M a b] from rfl, hX1]
              exact ih rest' (by simp at hl; omega) false X1
          | Tok.V d :: rest' =>
              obtain ⟨X1, hX1⟩ :=
                roundBody_suffix (Tok.V d :: rest') true (Tok.M x (y + 1/2) :: acc) a b
              have hred : roundGo (Tok.M x y :: Tok.V d :: rest') inner (acc ++ [Tok.M a b]) =
                  roundGo rest' true
                    (roundBody (Tok.V d :: rest') true
                      (Tok.M x (y + 1/2) :: (acc ++ [Tok.M a b]))) := rfl
              rw [hred, show Tok.M x (y + 1/2) :: (acc ++ [Tok.M a b]) =
                    (Tok.M x (y + 1/2) :: acc) ++ [Tok.M a b] from rfl, hX1]
              exact ih rest' (by simp at hl; omega) true X1
          | [] => exact ⟨Tok.M x y :: acc, rfl⟩
          | Tok.M x2 y2 :: rest' =>
              obtain ⟨X1, hX1⟩ :=
                roundBody_suffix (Tok.M x2 y2 :: rest') inner (Tok.M x y :: acc) a b
              have hred : roundGo (Tok.M x y :: Tok.M x2 y2 :: rest') inner (acc ++ [Tok.M a b]) =
                  roundGo rest' inner
                    (roundBody (Tok.M x2 y2 :: rest') inner
                      (Tok.M x y :: (acc ++ [Tok.M a b]))) := rfl
              rw [hred, show Tok.M x y :: (acc ++ [Tok.M a b]) =
                    (Tok.M x y :: acc) ++ [Tok.M a b] from rfl, hX1]
              exact ih rest' (by simp at hl; omega) inner X1
          | Tok.A sw dx dy :: rest' =>
              obtain ⟨X1, hX1⟩ :=
                roundBody_suffix (Tok.A sw dx dy :: rest') inner (Tok.M x y :: acc) a b
              have hred : roundGo (Tok.M x y :: Tok.A sw dx dy :: rest') inner (acc ++ [Tok.M a b]) =
                  roundGo rest' inner
                    (roundBody (Tok.A sw dx dy :: rest') inner
                      (Tok.M x y :: (acc ++ [Tok.M a b]))) := rfl
              rw [hred, show Tok.M x y :: (acc ++ [Tok.M a b]) =
                    (Tok.M x y :: acc) ++ [Tok.M a b] from rfl, hX1]
              exact ih rest' (by simp at hl; omega) inner X1
          | Tok.L x2 y2 :: rest' =>
              obtain ⟨X1, hX1⟩ :=
                roundBody_suffix (Tok.L x2 y2 :: rest') inner (Tok.M x y :: acc) a b
              have hred : roundGo (Tok.M x y :: Tok.L x2 y2 :: rest') inner (acc ++ [Tok.M a b]) =
                  roundGo rest' inner
                    (roundBody (Tok.L x2 y2 :: rest') inner
                      (Tok.M x y :: (acc ++ [Tok.M a b]))) := rfl
              rw [hred, show Tok.M x y :: (acc ++ [Tok.M a b]) =
                    (Tok.M x y :: acc) ++ [Tok.M a b] from rfl, hX1]
              exact ih rest' (by simp at hl; omega) inner X1
          | Tok.Lr dx dy :: rest' =>
              obtain ⟨X1, hX1⟩ :=
                roundBody_suffix (Tok.Lr dx dy :: rest') inner (Tok.M x y :: acc) a b
              have hred : roundGo (Tok.M x y :: Tok.Lr dx dy :: rest') inner (acc ++ [Tok.M a b]) =
                  roundGo rest' inner
                    (roundBody (Tok.Lr dx dy :: rest') inner
                      (Tok.M x y :: (acc ++ [Tok.M a b]))) := rfl
              rw [hred, show Tok.M x y :: (acc ++ [Tok.M a b]) =
                    (Tok.M x y :: acc) ++ [Tok.M a b] from rfl, hX1]
              exact ih rest' (by simp at hl; omega) inner X1
          | Tok.Z :: rest' =>
              obtain ⟨X1, hX1⟩ :=
                roundBody_suffix (Tok.Z :: rest') inner (Tok.M x y :: acc) a b
              have hred : roundGo (Tok.M x y :: Tok.Z :: rest') inner (acc ++ [Tok.M a b]) =
                  roundGo rest' inner
                    (roundBody (Tok.Z :: rest') inner
                      (Tok.M x y :: (acc ++ [Tok.M a b]))) := rfl
              rw [hred, show Tok.M x y :: (acc ++ [Tok.M a b]) =
                    (Tok.M x y :: acc) ++ [Tok.M a b] from rfl, hX1]
              exact ih rest' (by simp at hl; omega) inner X1
      | Tok.H d :: rest =>
          obtain ⟨X1, hX1⟩ := roundBody_suffix (Tok.H d :: rest) inner acc a b
          rw [show roundGo (Tok.H d :: rest) inner (acc ++ [Tok.M a b]) =
              roundGo rest inner (roundBody (Tok.H d :: rest) inner (acc ++ [Tok.M a b])) from rfl,
            hX1]
          exact ih rest (by simp at hl; omega) inner X1
      | Tok.V d :: rest =>
          obtain ⟨X1, hX1⟩ := roundBody_suffix (Tok.V d :: rest) inner acc a b
          rw [show roundGo (Tok.V d :: rest) inner (acc ++ [Tok.M a b]) =
              roundGo rest inner (roundBody (Tok.V d :: rest) inner (acc ++ [Tok.M a b])) from rfl,
            hX1]
          exact ih rest (by simp at hl; omega) inner X1
      | Tok.A sw dx dy :: rest =>
          obtain ⟨X1, hX1⟩ := roundBody_suffix (Tok.A sw dx dy :: rest) inner acc a b
          rw [show roundGo (Tok.A sw dx dy :: rest) inner (acc ++ [Tok.M a b]) =
              roundGo rest inner (roundBody (Tok.A sw dx dy :: rest) inner (acc ++ [Tok.M a b])) from rfl,
            hX1]
          exact ih rest (by simp at hl; omega) inner X1
      | Tok.L x2 y2 :: rest =>
          obtain ⟨X1, hX1⟩ := roundBody_suffix (Tok.L x2 y2 :: rest) inner acc a b
          rw [show roundGo (Tok.L x2 y2 :: rest) inner (acc ++ [Tok.M a b]) =
              roundGo rest inner (roundBody (Tok.L x2 y2 :: rest) inner (acc ++ [Tok.M a b])) from rfl,
            hX1]
          exact ih rest (by simp at hl; omega) inner X1
      | Tok.Lr dx dy :: rest =>
          obtain ⟨X1, hX1⟩ := roundBody_suffix (Tok.Lr dx dy :: rest) inner acc a b
          rw [show roundGo (Tok.Lr dx dy :: rest) inner (acc ++ [Tok.M a b]) =
              roundGo rest inner (roundBody (Tok.Lr dx dy :: rest) inner (acc ++ [Tok.M a b])) from rfl,
            hX1]
          exact ih rest (by simp at hl; omega) inner X1
      | Tok.Z :: rest =>
          obtain ⟨X1, hX1⟩ := roundBody_suffix (Tok.Z :: rest) inner acc a b
          rw [show roundGo (Tok.Z :: rest) inner (acc ++ [Tok.M a b]) =
              roundGo rest inner (roundBody (Tok.Z :: rest) inner (acc ++ [Tok.M a b])) from rfl,
            hX1]
          exact ih rest (by simp at hl; omega) inner X1

/-- **C7 (counterexample).** Rounding the unit square loop `M1 1 h1 v1
h-1 v-1 z`, whose first hop is horizontal, shifts the start to
`M1.5 1` — the *x* coordinate moves, not the *y* coordinate claimed. -/
theorem c7_start_shift_counterexample :
    (makePathSpecRound
        [Tok.M 1 1, Tok.H 1, Tok.V 1, Tok.H (-1), Tok.V (-1), Tok.Z]).head? =
      some (Tok.M (3/2) 1) ∧
    Tok.M (3/2) 1 ≠ Tok.M 1 (3/2) := by decide

/-- **C7 (amended).** For a loop starting with a `MoveTo` followed by a
hop, `makePathSpecRound` shifts the starting `MoveTo` by 0.5 along the
axis the first hop *is* on: x+0.5 when the first hop is horizontal,
y+0.5 when it is vertical. -/
theorem c7_round_start_shift (x y : ℚ) (d : ℤ) (rest : List Tok) :
    (∃ tl, makePathSpecRound (Tok.M x y :: Tok.H d :: rest) =
      Tok.M (x + 1/2) y :: tl) ∧
    (∃ tl, makePathSpecRound (Tok.M x y :: Tok.V d :: rest) =
      Tok.M x (y + 1/2) :: tl) := by
  constructor
  · obtain ⟨X1, hX1⟩ := roundBody_suffix (Tok.H d :: rest) false [] (x + 1/2) y
    obtain ⟨X2, hX2⟩ := roundGo_suffix rest.length rest le_rfl false X1 (x + 1/2) y
    refine ⟨X2.reverse, ?_⟩
    unfold makePathSpecRound
    have hred : roundGo (Tok.M x y :: Tok.H d :: rest) false [] =
        roundGo rest false (roundBody (Tok.H d :: rest) false [Tok.M (x + 1/2) y]) := rfl
    rw [hred]
    have hb : roundBody (Tok.H d :: rest) false [Tok.M (x + 1/2) y] =
        X1 ++ [Tok.M (x + 1/2) y] := by simpa using hX1
    rw [hb, hX2]
    simp
  · obtain ⟨X1, hX1⟩ := roundBody_suffix (Tok.V d :: rest) true [] x (y + 1/2)
    obtain ⟨X2, hX2⟩ := roundGo_suffix rest.length rest le_rfl true X1 x (y + 1/2)
    refine ⟨X2.reverse, ?_⟩
    unfold makePathSpecRound
    have hred : roundGo (Tok.M x y :: Tok.V d :: rest) false [] =
        roundGo rest true (roundBody (Tok.V d :: rest) true [Tok.M x (y + 1/2)]) := rfl
    rw [hred]
    have hb : roundBody (Tok.V d :: rest) true [Tok.M x (y + 1/2)] =
        X1 ++ [Tok.M x (y + 1/2)] := by simpa using hX1
    rw [hb, hX2]
    simp

/-! ## Claim C5 -/

/-- Two tokens are hops on the same axis (the merge condition
`(step[0] == 'h' || step[0] == 'v') && step[0] == prev[0]` of the
source). -/
def sameAxisTok : Tok → Tok → Bool
  | Tok.H _, Tok.H _ => true
  | Tok.V _, Tok.V _ => true
  | _, _ => false

theorem compactStep_push (acc : List Tok) (t : Tok)
    (h : ∀ a, acc.head? = some a → sameAxisTok a t = false) :
    compactStep acc t = t :: acc := by
  match acc, t with
  | [], t => cases t <;> rfl
  | a :: rest, t =>
      have ha := h a rfl
      cases a <;> cases t <;> first
        | rfl
        | simp [sameAxisTok] at ha

/-- One replay step of a singleton. -/
theorem replay_single (t : Tok) (st : (ℚ × ℚ) × (ℚ × ℚ)) :
    replay [t] st = tokMove st t := rfl

theorem replay_append (l1 l2 : List Tok) (st : (ℚ × ℚ) × (ℚ × ℚ)) :
    replay (l1 ++ l2) st = replay l2 (replay l1 st) :=
  List.foldl_append ..

theorem tokMove_hh (st : (ℚ × ℚ) × (ℚ × ℚ)) (d1 d2 : ℤ) :
    tokMove (tokMove st (Tok.H d1)) (Tok.H d2) = tokMove st (Tok.H (d1 + d2)) := by
  simp only [tokMove]
  rw [Prod.ext_iff, Prod.ext_iff]
  refine ⟨⟨?_, rfl⟩, rfl⟩
  push_cast
  ring

theorem tokMove_vv (st : (ℚ × ℚ) × (ℚ × ℚ)) (d1 d2 : ℤ) :
    tokMove (tokMove st (Tok.V d1)) (Tok.V d2) = tokMove st (Tok.V (d1 + d2)) := by
  simp only [tokMove]
  rw [Prod.ext_iff, Prod.ext_iff]
  refine ⟨⟨rfl, ?_⟩, rfl⟩
  push_cast
  ring

/-- One compaction step does not change the replay of the (reversed)
accumulator. -/
theorem compactStep_replay (acc : List Tok) (t : Tok) (st : (ℚ × ℚ) × (ℚ × ℚ)) :
    replay (compactStep acc t).reverse st = replay (acc.reverse ++ [t]) st := by
  cases acc with
  | nil => cases t <;> rfl
  | cons a rest2 =>
      cases a <;> cases t <;>
        simp only [compactStep, List.reverse_cons, replay_append, replay_single,
          tokMove_hh, tokMove_vv]

/-- Replay invariant of the whole compaction fold. -/
theorem compact_fold_replay (rest : List Tok) :
    ∀ (acc : List Tok) (st : (ℚ × ℚ) × (ℚ × ℚ)),
      replay ((rest.foldl compactStep acc).reverse) st = replay (acc.reverse ++ rest) st := by
  induction rest with
  | nil => intro acc st; simp
  | cons t rest ih =>
      intro acc st
      rw [List.foldl_cons, ih, replay_append, compactStep_replay, ← replay_append,
        List.append_assoc, List.singleton_append]

/-- Replaying a compacted pathspec from any state gives the same final
state (in particular the same final vertex) as replaying the original. -/
theorem compact_replay (l : List Tok) (st : (ℚ × ℚ) × (ℚ × ℚ)) :
    replay (compactPathSpec l) st = replay l st := by
  cases l with
  | nil => rfl
  | cons t0 rest =>
      show replay ((rest.foldl compactStep [t0]).reverse) st = _
      rw [compact_fold_replay rest [t0] st]
      rfl

theorem compactStep_length (acc : List Tok) (t : Tok) :
    (compactStep acc t).length ≤ acc.length + 1 := by
  cases acc with
  | nil => cases t <;> simp [compactStep]
  | cons a rest2 =>
      cases a <;> cases t <;> simp [compactStep]

/-- The compaction fold never lengthens. -/
theorem compact_fold_length (rest : List Tok) :
    ∀ acc : List Tok, (rest.foldl compactStep acc).length ≤ acc.length + rest.length := by
  induction rest with
  | nil => intro acc; simp
  | cons t rest ih =>
      intro acc
      calc (List.foldl compactStep (compactStep acc t) rest).length
          ≤ (compactStep acc t).length + rest.length := ih _
        _ ≤ (acc.length + 1) + rest.length := by
            have := compactStep_length acc t
            omega
        _ = acc.length + (t :: rest).length := by simp; omega

/-- The compaction accumulator (kept reversed) never contains two
adjacent same-axis hops. -/
theorem compact_fold_chain (rest : List Tok) :
    ∀ acc : List Tok, List.Chain' (fun a b => sameAxisTok b a = false) acc →
      List.Chain' (fun a b => sameAxisTok b a = false) (rest.foldl compactStep acc) := by
  induction rest with
  | nil => exact fun acc h => h
  | cons t rest ih =>
      intro acc hacc
      rw [List.foldl_cons]
      apply ih
      cases acc with
      | nil => cases t <;> simp [compactStep]
      | cons a rest2 =>
          rcases List.chain'_cons'.mp hacc with ⟨hhead, htail⟩
          cases a <;> cases t <;>
            first
              | exact List.chain'_cons.mpr ⟨rfl, hacc⟩
              | (refine List.chain'_cons'.mpr ⟨?_, htail⟩
                 intro b hb
                 have hba := hhead b hb
                 cases b <;> simp_all [sameAxisTok])

/-- The output of `compactPathSpec` has no two adjacent same-axis hops. -/
theorem compactPathSpec_chain (l : List Tok) :
    List.Chain' (fun a b => sameAxisTok a b = false) (compactPathSpec l) := by
  cases l with
  | nil => simp [compactPathSpec]
  | cons t0 rest =>
      have h := compact_fold_chain rest [t0] (by simp)
      have := (List.chain'_reverse (l := rest.foldl compactStep [t0])
        (R := fun a b => sameAxisTok a b = false)).mpr
      show List.Chain' _ ((rest.foldl compactStep [t0]).reverse)
      rw [List.chain'_reverse]
      exact h

/-- A pathspec with no two adjacent same-axis hops is a fixed point of
compaction. -/
theorem compact_fold_nomerge (rest : List Tok) :
    ∀ acc : List Tok,
      (∀ a b, acc.head? = some a → rest.head? = some b → sameAxisTok a b = false) →
      List.Chain' (fun a b => sameAxisTok a b = false) rest →
      rest.foldl compactStep acc = rest.reverse ++ acc := by
  induction rest with
  | nil => intro acc _ _; simp
  | cons t rest ih =>
      intro acc hcross hchain
      have hstep : compactStep acc t = t :: acc :=
        compactStep_push acc t (fun a ha => hcross a t ha rfl)
      rcases List.chain'_cons'.mp hchain with ⟨hhead, htail⟩
      rw [List.foldl_cons, hstep, ih (t :: acc) ?_ htail]
      · simp
      · intro a b ha hb
        simp only [List.head?_cons, Option.some.injEq] at ha
        subst ha
        exact hhead b (by simp [hb])

theorem compactPathSpec_of_chain (l : List Tok)
    (h : List.Chain' (fun a b => sameAxisTok a b = false) l) :
    compactPathSpec l = l := by
  cases l with
  | nil => rfl
  | cons t0 rest =>
      show (rest.foldl compactStep [t0]).reverse = _
      rw [compact_fold_nomerge rest [t0] ?_ (List.chain'_cons'.mp h).2]
      · simp
      · intro a b ha hb
        simp only [List.head?_cons, Option.some.injEq] at ha
        subst ha
        exact (List.chain'_cons'.mp h).1 b (by simp [hb])

/-- **C5.** Compaction yields a token count at most the original,
replaying the compacted and the original sequence from any start state
reaches the same final position, and compaction is idempotent. -/
theorem c5_compaction (l : List Tok) :
    (compactPathSpec l).length ≤ l.length ∧
    (∀ st : (ℚ × ℚ) × (ℚ × ℚ), replay (compactPathSpec l) st = replay l st) ∧
    compactPathSpec (compactPathSpec l) = compactPathSpec l := by
  refine ⟨?_, compact_replay l, compactPathSpec_of_chain _ (compactPathSpec_chain l)⟩
  cases l with
  | nil => simp [compactPathSpec]
  | cons t0 rest =>
      show (rest.foldl compactStep [t0]).reverse.length ≤ (t0 :: rest).length
      rw [List.length_reverse]
      have := compact_fold_length rest [t0]
      simp only [List.length_cons, List.length_nil] at this ⊢
      omega

/-! ## Claim C4 -/

/-- `calculateContourSeeded` always produces a contour of the shape
`finishContour style seed po pi dots shapes` with `(po, pi)` the PDP
pair of `pdpPair`. -/
theorem calculateContourSeeded_shape (jm : JsMath) (bm : Bitmask) (margin : ℤ)
    (style : String) (seed : ℕ) :
    ∃ dts shp : List Tok, calculateContourSeeded jm bm margin style seed =
      .ok (finishContour style seed (pdpPair bm margin style).1
        (pdpPair bm margin style).2 dts shp) := by
  by_cases hd : style = "dots"
  · subst hd; exact ⟨_, _, rfl⟩
  · by_cases hm : style = "mosaic"
    · subst hm; exact ⟨_, _, rfl⟩
    · have hbeq : (style == "dots" || style == "mosaic") = false := by
        simp [hd, hm]
      unfold calculateContourSeeded
      simp only [hbeq, Bool.false_eq_true, if_false, Except.bind, pure]
      exact ⟨_, _, rfl⟩

/-- The jitterer maps each token to exactly one token, `M` to `M` and
hops to `L`s, so the number of `M` tokens is preserved. -/
theorem jitter_fold_countM (l : List Tok) :
    ∀ (jv : ℚ) (st : ℕ × (ℚ × ℚ) × List Tok),
      countM (l.foldl (jitterStep jv) st).2.2 = countM st.2.2 + countM l := by
  induction l with
  | nil => intro jv st; simp [countM]
  | cons t l ih =>
      intro jv st
      rw [List.foldl_cons, ih]
      have hstep : countM (jitterStep jv st t).2.2 = countM st.2.2 + countM [t] := by
        rcases st with ⟨s, pos, acc⟩
        cases t <;>
          simp [jitterStep, countM, List.countP_append, List.countP_cons]
      rw [hstep]
      unfold countM
      simp only [List.countP_cons, List.countP_nil]
      omega

theorem jitter_countM (l : List Tok) (jv : ℚ) (s : ℕ) :
    countM (addJitterToPathSpec l jv s).1 = countM l := by
  unfold addJitterToPathSpec
  have := jitter_fold_countM l jv (s, (0, 0), [])
  simpa [countM] using this

theorem compactStep_countM (acc : List Tok) (t : Tok) :
    countM (compactStep acc t) = countM acc + countM [t] := by
  cases acc with
  | nil =>
      cases t <;> simp [compactStep, countM, List.countP_cons]
  | cons a rest =>
      cases a <;> cases t <;>
        simp [compactStep, countM, List.countP_cons]

theorem compact_fold_countM (rest : List Tok) :
    ∀ acc : List Tok, countM (rest.foldl compactStep acc) = countM acc + countM rest := by
  induction rest with
  | nil => intro acc; simp [countM]
  | cons t rest ih =>
      intro acc
      rw [List.foldl_cons, ih, compactStep_countM]
      unfold countM
      simp only [List.countP_cons, List.countP_nil]
      omega

theorem compact_countM (l : List Tok) : countM (compactPathSpec l) = countM l := by
  cases l with
  | nil => rfl
  | cons t0 rest =>
      show countM (rest.foldl compactStep [t0]).reverse = _
      unfold countM
      rw [List.countP_reverse]
      have := compact_fold_countM rest [t0]
      unfold countM at this
      simp only [List.countP_cons, List.countP_nil] at this ⊢
      omega

/-- The final pass preserves the loop count of both PDP pathspecs. -/
theorem finishContour_pdp_countM (style : String) (seed : ℕ) (po pi d s : List Tok) :
    countM (finishContour style seed po pi d s).pdpOuter = countM po ∧
    countM (finishContour style seed po pi d s).pdpInner = countM pi := by
  unfold finishContour
  split
  · exact ⟨jitter_countM po _ _, jitter_countM pi _ _⟩
  · exact ⟨compact_countM po, compact_countM pi⟩

/-- The final pass keeps empty PDP pathspecs empty. -/
theorem finishContour_pdp_nil (style : String) (seed : ℕ) (d s : List Tok) :
    (finishContour style seed [] [] d s).pdpOuter = [] ∧
    (finishContour style seed [] [] d s).pdpInner = [] := by
  unfold finishContour
  split
  · exact ⟨rfl, rfl⟩
  · exact ⟨rfl, rfl⟩

theorem pdpPair_nil (bm : Bitmask) (margin : ℤ) (style : String)
    (h : bm.width ≤ 16 ∨ bm.height ≤ 16) :
    pdpPair bm margin style = ([], []) := by
  have hbig : bigGrid bm = false := by
    simp only [bigGrid, Bool.and_eq_false_iff, decide_eq_false_iff_not, not_lt]
    omega
  unfold pdpPair
  simp [hbig]

theorem countM_pdpOuterSpec (o : ℤ × ℤ) : countM (pdpOuterSpec o) = 2 := by
  simp [pdpOuterSpec, countM, List.countP_append, List.countP_cons,
    List.replicate, List.countP_nil]

theorem countM_pdpInnerSpec (o : ℤ × ℤ) : countM (pdpInnerSpec o) = 1 := by
  simp [pdpInnerSpec, countM, List.countP_append, List.countP_cons,
    List.replicate, List.countP_nil]

/-- Loop counts of the rounded PDP pathspecs: rounding the three-corner
outer/inner pathspecs keeps 6 and 3 `MoveTo`s respectively (evaluated
symbolically in the corner offsets). -/
theorem countM_round_pdpOuter (bm : Bitmask) (margin : ℤ) :
    countM (makePathSpecRound
      ((pdpOffsets bm margin).foldl (fun acc o => acc ++ pdpOuterSpec o) [])) = 6 := by
  simp [pdpOffsets, pdpOuterSpec, makePathSpecRound, roundGo, roundBody, roundPush,
    roundPeep, countM, List.countP_append, List.countP_cons, List.replicate]

theorem countM_round_pdpInner (bm : Bitmask) (margin : ℤ) :
    countM (makePathSpecRound
      ((pdpOffsets bm margin).foldl (fun acc o => acc ++ pdpInnerSpec o) [])) = 3 := by
  simp [pdpOffsets, pdpInnerSpec, makePathSpecRound, roundGo, roundBody, roundPush,
    roundPeep, countM, List.countP_append, List.countP_cons, List.replicate]

/-- Loop counts of the PDP pair on large grids: 6 outer, 3 inner, for
every style. -/
theorem pdpPair_counts (bm : Bitmask) (margin : ℤ) (style : String)
    (hw : 16 < bm.width) (hh : 16 < bm.height) :
    countM (pdpPair bm margin style).1 = 6 ∧ countM (pdpPair bm margin style).2 = 3 := by
  have hbig : bigGrid bm = true := by
    simp only [bigGrid, Bool.and_eq_true, decide_eq_true_eq]
    omega
  unfold pdpPair
  simp only [hbig, if_true]
  split
  · exact ⟨countM_round_pdpOuter bm margin, countM_round_pdpInner bm margin⟩
  · constructor
    · simp [pdpOffsets, countM, List.countP_append]
      have h1 := countM_pdpOuterSpec (margin, margin)
      have h2 := countM_pdpOuterSpec ((bm.width : ℤ) + margin - 7, margin)
      have h3 := countM_pdpOuterSpec (margin, (bm.height : ℤ) + margin - 7)
      unfold countM at h1 h2 h3
      omega
    · simp [pdpOffsets, countM, List.countP_append]
      have h1 := countM_pdpInnerSpec (margin, margin)
      have h2 := countM_pdpInnerSpec ((bm.width : ℤ) + margin - 7, margin)
      have h3 := countM_pdpInnerSpec (margin, (bm.height : ℤ) + margin - 7)
      unfold countM at h1 h2 h3
      omega

/-- **C4.** For every grid with `width ≤ 16` or `height ≤ 16` the
alignment-marker pathspecs are empty for every style; for every grid
with `width > 16` and `height > 16`, regardless of cell contents, the
outer alignment pathspec holds exactly 6 loops (two nested rings per
corner) and the inner one exactly 3 (one 3×3 loop per corner). -/
theorem c4_alignment_gating (jm : JsMath) (bm : Bitmask) (margin : ℤ) (style : String) :
    ((bm.width ≤ 16 ∨ bm.height ≤ 16) →
      (calculateContour jm bm margin style).toOption.map
        (fun c => (c.pdpOuter, c.pdpInner)) = some ([], [])) ∧
    (16 < bm.width → 16 < bm.height →
      (calculateContour jm bm margin style).toOption.map
        (fun c => (countM c.pdpOuter, countM c.pdpInner)) = some (6, 3)) := by
  obtain ⟨dts, shp, heq⟩ := calculateContourSeeded_shape jm bm margin style 1
  have hcc : calculateContour jm bm margin style =
      calculateContourSeeded jm bm margin style 1 := rfl
  constructor
  · intro h
    rw [hcc, heq, pdpPair_nil bm margin style h]
    simp only [Except.toOption, Option.map_some', Option.some.injEq, Prod.mk.injEq]
    exact finishContour_pdp_nil style 1 dts shp
  · intro hw hh
    rw [hcc, heq]
    simp only [Except.toOption, Option.map_some', Option.some.injEq, Prod.mk.injEq]
    obtain ⟨hpo, hpi⟩ := finishContour_pdp_countM style 1
      (pdpPair bm margin style).1 (pdpPair bm margin style).2 dts shp
    obtain ⟨h6, h3⟩ := pdpPair_counts bm margin style hw hh
    exact ⟨by rw [hpo, h6], by rw [hpi, h3]⟩

/-- Witness for C4: a 3×3 grid (below the gate) with `basic` style has
empty alignment pathspecs; a 17×17 grid with `dots` style carries 6
outer and 3 inner marker loops. -/
theorem c4_alignment_gating_witness :
    (calculateContour jmId (bmOfRows 3 3 []) 1 "basic").toOption.map
        (fun c => (c.pdpOuter, c.pdpInner)) = some ([], []) ∧
    (calculateContour jmId (bmOfRows 17 17 []) 1 "dots").toOption.map
        (fun c => (countM c.pdpOuter, countM c.pdpInner)) = some (6, 3) :=
  ⟨(c4_alignment_gating jmId (bmOfRows 3 3 []) 1 "basic").1 (Or.inl (by decide)),
   (c4_alignment_gating jmId (bmOfRows 17 17 []) 1 "dots").2 (by decide) (by decide)⟩

/-! ## Claim C3 -/

/-- **C3 (counterexample).** Quantified over every style, "changing the
seed changes at least one output coordinate" is false: for the `basic`
style (which never consumes the generator) seeds 1 and 2 produce
identical output on a 1×1 filled grid.  (The public `calculateContour`
does not even accept a seed; `calculateContourSeeded` generalizes its
hardcoded `new PRNG(1)`.) -/
theorem c3_seed_counterexample :
    (calculateContourSeeded jmId (bmOfRows 1 1 [[true]]) 1 "basic" 1).toOption =
      (calculateContourSeeded jmId (bmOfRows 1 1 [[true]]) 1 "basic" 2).toOption ∧
    (calculateContourSeeded jmId (bmOfRows 1 1 [[true]]) 1 "basic" 1).toOption.isSome =
      true := by decide

/-- **C3 (amended).** (i) `calculateContour` re-initializes its generator
to the fixed seed 1 on every invocation, so repeated computations on the
same input are identical (the embedding is a pure function of grid,
margin, style and seed); (ii) for jitter styles the single generator
stream is consumed in the fixed order shapes, dots, alignment-inner,
alignment-outer (`jitterPipeline`); (iii) changing the seed changes the
output for a jitter style on a grid with at least one traced segment
(seed sensitivity holds for jitter styles, not for every style as
claimed). -/
theorem c3_reproducibility :
    (∀ (jm : JsMath) (bm : Bitmask) (margin : ℤ) (style : String),
      calculateContour jm bm margin style =
        calculateContourSeeded jm bm margin style 1) ∧
    (∀ (jm : JsMath) (bm : Bitmask) (margin : ℤ) (style : String) (seed : ℕ),
      strStartsWith style "jitter-" = true →
      ∃ dts shp : List Tok,
        calculateContourSeeded jm bm margin style seed =
          .ok (jitterPipeline shp dts (pdpPair bm margin style).2
            (pdpPair bm margin style).1 (jitterJv style) seed)) ∧
    (calculateContourSeeded jmId (bmOfRows 1 1 [[true]]) 1 "jitter-light" 1).toOption ≠
      (calculateContourSeeded jmId (bmOfRows 1 1 [[true]]) 1 "jitter-light" 2).toOption := by
  refine ⟨fun jm bm margin style => rfl, ?_, by decide⟩
  intro jm bm margin style seed hj
  obtain ⟨dts, shp, heq⟩ := calculateContourSeeded_shape jm bm margin style seed
  refine ⟨dts, shp, ?_⟩
  rw [heq]
  unfold finishContour
  rw [if_pos hj]

/-- Witness for C3 (amended): the threading order at `jitter-light`
applied to the 1×1 filled grid with seed 1. -/
theorem c3_reproducibility_witness :
    ∃ dts shp : List Tok,
      calculateContourSeeded jmId (bmOfRows 1 1 [[true]]) 1 "jitter-light" 1 =
        .ok (jitterPipeline shp dts
          (pdpPair (bmOfRows 1 1 [[true]]) 1 "jitter-light").2
          (pdpPair (bmOfRows 1 1 [[true]]) 1 "jitter-light").1
          (jitterJv "jitter-light") 1) :=
  c3_reproducibility.2.1 jmId (bmOfRows 1 1 [[true]]) 1 "jitter-light" 1 (by decide)

/-! ## Claim C2: closure infrastructure -/

/-- Token is a `MoveTo`. -/
def isMTok : Tok → Bool
  | Tok.M _ _ => true
  | _ => false

/-- The pathspec contains no `MoveTo` token. -/
def noM (l : List Tok) : Bool := l.all (fun t => !isMTok t)

/-- Folding the loop splitter over `MoveTo`-free tokens only extends the
pending loop. -/
theorem splitStep_fold_noM (body : List Tok) (h : noM body = true) :
    ∀ (A : List (List Tok)) (cur : List Tok),
      body.foldl splitStep (A, cur) = (A, body.reverse ++ cur) := by
  induction body with
  | nil => intro A cur; simp
  | cons t body ih =>
      intro A cur
      simp only [noM, List.all_cons, Bool.and_eq_true] at h
      have ht : splitStep (A, cur) t = (A, t :: cur) := by
        cases t <;> simp_all [splitStep, isMTok]
      rw [List.foldl_cons, ht, ih (by simpa [noM] using h.2)]
      simp

/-- Appending a complete loop (a `MoveTo` with a `MoveTo`-free body)
appends exactly one split loop. -/
theorem splitLoops_append_loop (l : List Tok) (x y : ℚ) (body : List Tok)
    (h : noM body = true) :
    splitLoops (l ++ (Tok.M x y :: body)) = splitLoops l ++ [Tok.M x y :: body] := by
  unfold splitLoops
  rw [List.foldl_append, List.foldl_cons]
  rcases hfl : l.foldl splitStep ([], []) with ⟨A, cur⟩
  have hM : splitStep (A, cur) (Tok.M x y) =
      (A ++ (if cur = [] then [] else [cur.reverse]), [Tok.M x y]) := rfl
  rw [hM, splitStep_fold_noM body h]
  simp

/-- A pathspec assembled as a sequence of complete closed loops: empty,
or such a pathspec followed by one closed loop `M… body z` with a
`MoveTo`-free body. -/
inductive IsClosedLoops : List Tok → Prop
  | nil : IsClosedLoops []
  | snoc (l : List Tok) (x y : ℚ) (core : List Tok)
      (hl : IsClosedLoops l) (hcore : noM core = true)
      (hclosed : loopClosed (Tok.M x y :: core ++ [Tok.Z]) = true) :
      IsClosedLoops (l ++ (Tok.M x y :: core ++ [Tok.Z]))

/-- Every loop of a closed-loop assembly replays to its start. -/
theorem IsClosedLoops.closed {l : List Tok} (h : IsClosedLoops l) :
    allLoopsClosed l = true := by
  induction h with
  | nil => rfl
  | snoc l x y core hl hcore hclosed ih =>
      unfold allLoopsClosed
      have hbody : noM (core ++ [Tok.Z]) = true := by
        unfold noM at hcore ⊢
        rw [List.all_append, hcore, Bool.true_and]
        rfl
      have hsp := splitLoops_append_loop l x y (core ++ [Tok.Z]) hbody
      rw [List.cons_append, hsp]
      rw [List.all_append]
      unfold allLoopsClosed at ih
      rw [ih]
      simp only [List.all_cons, List.all_nil, Bool.and_true, Bool.true_and]
      rwa [List.cons_append] at hclosed

/-- A merge step on an appended accumulator only touches the (nonempty)
top part. -/
theorem compactStep_protect (accTop accBot : List Tok) (t : Tok)
    (h : accTop ≠ []) :
    compactStep (accTop ++ accBot) t = compactStep accTop t ++ accBot := by
  match accTop, h with
  | a :: rest, _ =>
      cases a <;> cases t <;> simp [compactStep]

/-- The merge accumulator never becomes empty. -/
theorem compactStep_ne_nil (acc : List Tok) (t : Tok) :
    compactStep acc t ≠ [] := by
  cases acc with
  | nil => cases t <;> simp [compactStep]
  | cons a rest => cases a <;> cases t <;> simp [compactStep]

/-- Folding the merge step over an appended accumulator only touches the
(nonempty) top part. -/
theorem compact_fold_protect (body : List Tok) :
    ∀ (accTop accBot : List Tok), accTop ≠ [] →
      body.foldl compactStep (accTop ++ accBot) =
        body.foldl compactStep accTop ++ accBot := by
  induction body with
  | nil => intro accTop accBot _; rfl
  | cons t body ih =>
      intro accTop accBot h
      rw [List.foldl_cons, List.foldl_cons, compactStep_protect accTop accBot t h,
        ih _ _ (compactStep_ne_nil accTop t)]

/-- A `MoveTo` is always pushed, never merged. -/
theorem compactStep_M (acc : List Tok) (x y : ℚ) :
    compactStep acc (Tok.M x y) = Tok.M x y :: acc := by
  cases acc with
  | nil => rfl
  | cons a rest => cases a <;> rfl

/-- A nonempty merge accumulator stays nonempty under folding. -/
theorem compact_fold_ne_nil (body : List Tok) :
    ∀ acc : List Tok, acc ≠ [] → body.foldl compactStep acc ≠ [] := by
  induction body with
  | nil => intro acc h; exact h
  | cons t body ih =>
      intro acc h
      rw [List.foldl_cons]
      exact ih _ (compactStep_ne_nil acc t)

/-- Hop merging distributes over a loop boundary: the new loop's `MoveTo`
is never merged into the previous loop. -/
theorem compact_append_loop (l : List Tok) (x y : ℚ) (body : List Tok) :
    compactPathSpec (l ++ (Tok.M x y :: body)) =
      compactPathSpec l ++ compactPathSpec (Tok.M x y :: body) := by
  cases l with
  | nil => rfl
  | cons t0 rest =>
      show compactPathSpec (t0 :: (rest ++ (Tok.M x y :: body))) = _
      simp only [compactPathSpec]
      rw [List.foldl_append, List.foldl_cons, compactStep_M]
      have hsplit : body.foldl compactStep (Tok.M x y :: rest.foldl compactStep [t0]) =
          body.foldl compactStep [Tok.M x y] ++ rest.foldl compactStep [t0] := by
        have := compact_fold_protect body [Tok.M x y] (rest.foldl compactStep [t0])
          (by simp)
        simpa using this
      rw [hsplit, List.reverse_append]

/-- A `z` is always pushed, never merged. -/
theorem compactStep_Z (acc : List Tok) :
    compactStep acc Tok.Z = Tok.Z :: acc := by
  cases acc with
  | nil => rfl
  | cons a rest => cases a <;> rfl

/-- Hop merging never merges a trailing `z` away. -/
theorem compact_append_z (l : List Tok) :
    compactPathSpec (l ++ [Tok.Z]) = compactPathSpec l ++ [Tok.Z] := by
  cases l with
  | nil => rfl
  | cons t0 rest =>
      show compactPathSpec (t0 :: (rest ++ [Tok.Z])) = _
      simp only [compactPathSpec]
      rw [List.foldl_append, List.foldl_cons, List.foldl_nil, compactStep_Z,
        List.reverse_cons]

/-- Merging a non-`MoveTo` token into a `MoveTo`-free accumulator keeps
it `MoveTo`-free. -/
theorem noM_compactStep (acc : List Tok) (t : Tok)
    (ha : noM acc = true) (ht : isMTok t = false) :
    noM (compactStep acc t) = true := by
  cases acc with
  | nil => cases t <;> simp_all [compactStep, noM, isMTok]
  | cons a rest => cases a <;> cases t <;> simp_all [compactStep, noM, isMTok]

/-- Folding the merge step over a `MoveTo`-free body atop an accumulator
ending in a `MoveTo` keeps that `MoveTo` at the bottom, under a
`MoveTo`-free stack. -/
theorem compact_fold_noM_bottom (body : List Tok) (hb : noM body = true) :
    ∀ (accT : List Tok) (x y : ℚ), noM accT = true →
      ∃ X, body.foldl compactStep (accT ++ [Tok.M x y]) = X ++ [Tok.M x y] ∧
        noM X = true := by
  induction body with
  | nil => intro accT x y h; exact ⟨accT, rfl, h⟩
  | cons t body ih =>
      intro accT x y h
      simp only [noM, List.all_cons, Bool.and_eq_true] at hb
      have ht : isMTok t = false := by
        rcases hb with ⟨hb1, _⟩
        cases t <;> simp_all [isMTok]
      have hb2 : noM body = true := by
        rcases hb with ⟨_, hb2⟩
        simpa [noM] using hb2
      rw [List.foldl_cons]
      cases accT with
      | nil =>
          have hstep : compactStep ([] ++ [Tok.M x y]) t = [t] ++ [Tok.M x y] := by
            cases t <;> simp_all [compactStep, isMTok]
          rw [hstep]
          exact ih hb2 [t] x y (by simp [noM, ht])
      | cons a rest =>
          rw [compactStep_protect (a :: rest) [Tok.M x y] t (by simp)]
          exact ih hb2 _ x y (noM_compactStep _ t h ht)

/-- Replaying from a `MoveTo` resets to its coordinates. -/
theorem replay_cons_M (x y : ℚ) (l : List Tok) (st : (ℚ × ℚ) × (ℚ × ℚ)) :
    replay (Tok.M x y :: l) st = replay l ((x, y), (x, y)) := rfl

/-- Hop merging preserves the closure of a single `M … z` loop. -/
theorem loopClosed_compact (x y : ℚ) (core : List Tok)
    (hcore : noM core = true)
    (h : loopClosed ((Tok.M x y :: core) ++ [Tok.Z]) = true) :
    loopClosed (compactPathSpec ((Tok.M x y :: core) ++ [Tok.Z])) = true := by
  rw [compact_append_z]
  obtain ⟨X, hX, hXm⟩ := compact_fold_noM_bottom core hcore [] x y rfl
  simp only [List.nil_append] at hX
  have hcompact : compactPathSpec (Tok.M x y :: core) = Tok.M x y :: X.reverse := by
    simp only [compactPathSpec]
    rw [hX, List.reverse_append]
    rfl
  have hrep : replay X.reverse ((x, y), (x, y)) = replay core ((x, y), (x, y)) := by
    have := compact_replay (Tok.M x y :: core) (((0 : ℚ), (0 : ℚ)), ((0 : ℚ), (0 : ℚ)))
    rw [hcompact, replay_cons_M, replay_cons_M] at this
    exact this
  rw [hcompact, List.cons_append]
  rw [List.cons_append] at h
  simp only [loopClosed] at h ⊢
  rw [List.getLast?_concat, List.dropLast_concat] at h ⊢
  simp only [if_pos rfl, if_true] at h ⊢
  rw [hrep]
  exact h

/-- `MoveTo`-freeness survives reversal. -/
theorem noM_reverse (l : List Tok) (h : noM l = true) : noM l.reverse = true := by
  simpa [noM, List.all_reverse] using h

/-- Hop merging preserves a closed-loop assembly. -/
theorem IsClosedLoops.compact {l : List Tok} (h : IsClosedLoops l) :
    IsClosedLoops (compactPathSpec l) := by
  induction h with
  | nil => exact IsClosedLoops.nil
  | snoc l x y core hl hcore hclosed ih =>
      rw [show (Tok.M x y :: core ++ [Tok.Z] : List Tok) =
        Tok.M x y :: (core ++ [Tok.Z]) from by rw [List.cons_append]]
      rw [compact_append_loop]
      rw [show (Tok.M x y :: (core ++ [Tok.Z]) : List Tok) =
        (Tok.M x y :: core) ++ [Tok.Z] from by rw [List.cons_append]]
      rw [compact_append_z]
      obtain ⟨X, hX, hXm⟩ := compact_fold_noM_bottom core hcore [] x y rfl
      simp only [List.nil_append] at hX
      have hcompact : compactPathSpec (Tok.M x y :: core) = Tok.M x y :: X.reverse := by
        simp only [compactPathSpec]
        rw [hX, List.reverse_append]
        rfl
      rw [hcompact]
      have hcl : loopClosed (Tok.M x y :: X.reverse ++ [Tok.Z]) = true := by
        have := loopClosed_compact x y core hcore (by
          rw [List.cons_append]; exact hclosed)
        rw [compact_append_z, hcompact] at this
        exact this
      exact IsClosedLoops.snoc _ x y X.reverse ih (noM_reverse X hXm) hcl

/-- Appending one closed loop to a closed-loop assembly, with the loop
given in any syntactic form. -/
theorem IsClosedLoops.append_loop {l : List Tok} (h : IsClosedLoops l)
    (x y : ℚ) (core : List Tok) {r : List Tok}
    (hr : r = (Tok.M x y :: core) ++ [Tok.Z])
    (hcore : noM core = true)
    (hclosed : loopClosed r = true) :
    IsClosedLoops (l ++ r) := by
  subst hr
  exact IsClosedLoops.snoc l x y core h hcore (by rwa [List.cons_append] at hclosed)

/-- A generic fold invariant preserver. -/
theorem foldl_preserve {α β : Type} (P : α → Prop) (f : α → β → α)
    (l : List β) (init : α) (h0 : P init) (hstep : ∀ a b, P a → P (f a b)) :
    P (l.foldl f init) := by
  induction l generalizing init with
  | nil => exact h0
  | cons b l ih => exact ih (f init b) (hstep init b h0)

/-- A `dots`-style cell loop is closed: its four quarter-arcs cancel. -/
theorem dotPathSpec_closed (x y : ℕ) (margin : ℤ) :
    loopClosed (dotPathSpec x y margin) = true := by
  simp only [dotPathSpec, loopClosed]
  norm_num [List.getLast?, List.dropLast, replay, tokMove]

/-- A `mosaic`-style cell loop is closed: its four rotated sides cancel,
whatever the rounded trigonometric values are. -/
theorem mosaicPathSpec_closed (jm : JsMath) (x y : ℕ) (margin : ℤ) (angle : ℚ) :
    loopClosed (mosaicPathSpec jm x y margin angle) = true := by
  simp only [mosaicPathSpec, loopClosed]
  norm_num [List.getLast?, List.dropLast, replay, tokMove]
  ring_nf
  norm_num

/-- The `dots` cell loop in explicit loop shape. -/
theorem dotPathSpec_shape (x y : ℕ) (margin : ℤ) :
    dotPathSpec x y margin =
      (Tok.M ((x : ℚ) + (margin : ℚ) + 1/2) ((y : ℚ) + (margin : ℚ)) ::
        [Tok.A true (1/2) (1/2), Tok.A true (-(1/2)) (1/2),
         Tok.A true (-(1/2)) (-(1/2)), Tok.A true (1/2) (-(1/2))]) ++ [Tok.Z] := rfl

/-- The `mosaic` cell loop in explicit loop shape. -/
theorem mosaicPathSpec_shape (jm : JsMath) (x y : ℕ) (margin : ℤ) (angle : ℚ) :
    mosaicPathSpec jm x y margin angle =
      (Tok.M (jm.prec3 ((x : ℚ) + (margin : ℚ) + 1/2 + ((1 - 9/10)/2)
            - (1/2)*jm.cos angle + (1/2)*jm.sin angle))
          (jm.prec3 ((y : ℚ) + (margin : ℚ) + 1/2 + ((1 - 9/10)/2)
            + (1/2)*jm.cos angle - (1/2)*jm.sin angle - 1)) ::
        [Tok.Lr (jm.prec3 ((9/10) * jm.cos angle)) (jm.prec3 ((9/10) * jm.sin angle)),
         Tok.Lr (-(jm.prec3 ((9/10) * jm.sin angle))) (jm.prec3 ((9/10) * jm.cos angle)),
         Tok.Lr (-(jm.prec3 ((9/10) * jm.cos angle))) (-(jm.prec3 ((9/10) * jm.sin angle))),
         Tok.Lr (jm.prec3 ((9/10) * jm.sin angle)) (-(jm.prec3 ((9/10) * jm.cos angle)))]) ++
        [Tok.Z] := rfl

/-- One cell step of the dots/mosaic scan preserves closed-loop
assemblies in both output sequences. -/
theorem dotsMosaicCell_closed (jm : JsMath) (bm : Bitmask) (margin : ℤ)
    (style : String) (st : ℕ × List Tok × List Tok) (x y : ℕ)
    (h : IsClosedLoops st.2.1 ∧ IsClosedLoops st.2.2) :
    IsClosedLoops (dotsMosaicCell jm bm margin style st x y).2.1 ∧
      IsClosedLoops (dotsMosaicCell jm bm margin style st x y).2.2 := by
  obtain ⟨s, dts, shps⟩ := st
  obtain ⟨h1, h2⟩ := h
  simp only [dotsMosaicCell]
  by_cases hskip : (bigGrid bm && inPdpZone bm margin x y) = true
  · rw [if_pos hskip]; exact ⟨h1, h2⟩
  · rw [if_neg hskip]
    by_cases hget : bm.get x y = true
    · rw [if_pos hget]
      set r : ℕ × List Tok :=
        if style == "dots" then (s, dotPathSpec x y margin)
        else
          let s1 := prngNext s
          (s1, mosaicPathSpec jm x y margin (mosaicAngle s1)) with hrdef
      have hloop : IsClosedLoops dts → IsClosedLoops (dts ++ r.2) := by
        intro hd
        rw [hrdef]
        by_cases hsty : (style == "dots") = true
        · rw [if_pos hsty]
          exact hd.append_loop _ _ _ (dotPathSpec_shape x y margin) rfl
            (dotPathSpec_closed x y margin)
        · rw [if_neg hsty]
          exact hd.append_loop _ _ _
            (mosaicPathSpec_shape jm x y margin (mosaicAngle (prngNext s))) rfl
            (mosaicPathSpec_closed jm x y margin (mosaicAngle (prngNext s)))
      have hloop2 : IsClosedLoops shps → IsClosedLoops (shps ++ r.2) := by
        intro hd
        rw [hrdef]
        by_cases hsty : (style == "dots") = true
        · rw [if_pos hsty]
          exact hd.append_loop _ _ _ (dotPathSpec_shape x y margin) rfl
            (dotPathSpec_closed x y margin)
        · rw [if_neg hsty]
          exact hd.append_loop _ _ _
            (mosaicPathSpec_shape jm x y margin (mosaicAngle (prngNext s))) rfl
            (mosaicPathSpec_closed jm x y margin (mosaicAngle (prngNext s)))
      by_cases hiso : (!bm.get ((x : ℤ) - 1) y && !bm.get ((x : ℤ) + 1) y
          && !bm.get x ((y : ℤ) - 1) && !bm.get x ((y : ℤ) + 1)) = true
      · rw [if_pos hiso]
        exact ⟨hloop h1, h2⟩
      · rw [if_neg hiso]
        exact ⟨h1, hloop2 h2⟩
    · rw [if_neg hget]
      exact ⟨h1, h2⟩

/-- The compacted rounded three-corner outer PDP pathspec is closed,
for every grid size and margin (symbolic evaluation). -/
theorem pdp_round_outer_compact_closed (bm : Bitmask) (margin : ℤ) :
    allLoopsClosed (compactPathSpec (makePathSpecRound
      ((pdpOffsets bm margin).foldl (fun acc o => acc ++ pdpOuterSpec o) []))) = true := by
  simp [pdpOffsets, pdpOuterSpec, makePathSpecRound, roundGo, roundBody, roundPush,
    roundPeep, List.replicate, allLoopsClosed, splitLoops, splitStep, loopClosed,
    replay, tokMove, List.getLast?, List.dropLast, compactPathSpec, compactStep]

/-- The compacted rounded three-corner inner PDP pathspec is closed. -/
theorem pdp_round_inner_compact_closed (bm : Bitmask) (margin : ℤ) :
    allLoopsClosed (compactPathSpec (makePathSpecRound
      ((pdpOffsets bm margin).foldl (fun acc o => acc ++ pdpInnerSpec o) []))) = true := by
  simp [pdpOffsets, pdpInnerSpec, makePathSpecRound, roundGo, roundBody, roundPush,
    roundPeep, List.replicate, allLoopsClosed, splitLoops, splitStep, loopClosed,
    replay, tokMove, List.getLast?, List.dropLast, compactPathSpec, compactStep]

/-- The compacted raw three-corner outer PDP pathspec is closed. -/
theorem pdp_raw_outer_compact_closed (bm : Bitmask) (margin : ℤ) :
    allLoopsClosed (compactPathSpec
      ((pdpOffsets bm margin).foldl (fun acc o => acc ++ pdpOuterSpec o) [])) = true := by
  simp [pdpOffsets, pdpOuterSpec, List.replicate, allLoopsClosed, splitLoops,
    splitStep, loopClosed, replay, tokMove, List.getLast?, List.dropLast,
    compactPathSpec, compactStep, sub_eq_add_neg]

/-- The compacted raw three-corner inner PDP pathspec is closed. -/
theorem pdp_raw_inner_compact_closed (bm : Bitmask) (margin : ℤ) :
    allLoopsClosed (compactPathSpec
      ((pdpOffsets bm margin).foldl (fun acc o => acc ++ pdpInnerSpec o) [])) = true := by
  simp [pdpOffsets, pdpInnerSpec, List.replicate, allLoopsClosed, splitLoops,
    splitStep, loopClosed, replay, tokMove, List.getLast?, List.dropLast,
    compactPathSpec, compactStep, sub_eq_add_neg]

/-- Whatever the style, the compacted PDP pathspec pair is closed. -/
theorem pdpPair_compact_closed (bm : Bitmask) (margin : ℤ) (style : String) :
    allLoopsClosed (compactPathSpec (pdpPair bm margin style).1) = true ∧
      allLoopsClosed (compactPathSpec (pdpPair bm margin style).2) = true := by
  unfold pdpPair
  by_cases hbig : bigGrid bm = true
  · rw [if_pos hbig]
    by_cases hsty : (style == "dots" || style == "rounded") = true
    · simp only [hsty, if_true]
      exact ⟨pdp_round_outer_compact_closed bm margin,
        pdp_round_inner_compact_closed bm margin⟩
    · simp only [hsty, Bool.false_eq_true, if_false]
      exact ⟨pdp_raw_outer_compact_closed bm margin,
        pdp_raw_inner_compact_closed bm margin⟩
  · rw [if_neg hbig]
    exact ⟨rfl, rfl⟩

/-- The dots/mosaic scanner emits only whole closed cell loops (and no
PDP pathspecs). -/
theorem dotsMosaic_closedLoops (jm : JsMath) (bm : Bitmask) (margin : ℤ)
    (style : String) (seed : ℕ) (c : Contour)
    (h : calculateDotsOrMosaicContourSeeded jm bm margin style seed = .ok c) :
    c.pdpOuter = [] ∧ c.pdpInner = [] ∧
      IsClosedLoops c.dots ∧ IsClosedLoops c.shapes := by
  unfold calculateDotsOrMosaicContourSeeded at h
  by_cases hsty : ¬(style = "dots") ∧ ¬(style = "mosaic")
  · rw [if_pos hsty] at h
    exact absurd h (by simp)
  · rw [if_neg hsty] at h
    simp only [Except.ok.injEq] at h
    subst h
    have hinv := foldl_preserve
      (fun st : ℕ × List Tok × List Tok => IsClosedLoops st.2.1 ∧ IsClosedLoops st.2.2)
      (fun st y => (List.range bm.width).foldl
        (fun st x => dotsMosaicCell jm bm margin style st x y) st)
      (List.range bm.height) (seed, [], [])
      ⟨IsClosedLoops.nil, IsClosedLoops.nil⟩
      (fun st y hst => foldl_preserve _ _ _ st hst
        (fun st2 x h2 => dotsMosaicCell_closed jm bm margin style st2 x y h2))
    exact ⟨rfl, rfl, hinv.1, hinv.2⟩

/-- For every non-jitter style, both alignment-marker pathspecs of the
computed contour are closed. -/
theorem nonJitter_pdp_closed (jm : JsMath) (bm : Bitmask) (margin : ℤ)
    (style : String) (seed : ℕ) (c : Contour)
    (hstyle : strStartsWith style "jitter-" = false)
    (h : calculateContourSeeded jm bm margin style seed = .ok c) :
    allLoopsClosed c.pdpOuter = true ∧ allLoopsClosed c.pdpInner = true := by
  obtain ⟨dts, shp, heq⟩ := calculateContourSeeded_shape jm bm margin style seed
  rw [heq] at h
  simp only [Except.ok.injEq] at h
  subst h
  unfold finishContour
  rw [if_neg (by rw [hstyle]; exact Bool.false_ne_true)]
  exact ⟨(pdpPair_compact_closed bm margin style).1,
    (pdpPair_compact_closed bm margin style).2⟩

/-- For the `dots` and `mosaic` styles all four pathspecs of the
computed contour are closed. -/
theorem dotsMosaic_contour_closed (jm : JsMath) (bm : Bitmask) (margin : ℤ)
    (style : String) (seed : ℕ) (c : Contour)
    (hsty : style = "dots" ∨ style = "mosaic")
    (h : calculateContourSeeded jm bm margin style seed = .ok c) :
    allLoopsClosed c.pdpOuter = true ∧ allLoopsClosed c.pdpInner = true ∧
      allLoopsClosed c.dots = true ∧ allLoopsClosed c.shapes = true := by
  have hbeq : (style == "dots" || style == "mosaic") = true := by
    rcases hsty with h' | h' <;> subst h' <;> rfl
  have hguard : ¬(¬(style = "dots") ∧ ¬(style = "mosaic")) := by
    rcases hsty with h' | h' <;> subst h' <;> simp
  have hjit : strStartsWith style "jitter-" = false := by
    rcases hsty with h' | h' <;> subst h' <;> rfl
  have hround : (style == "rounded") = false := by
    rcases hsty with h' | h' <;> subst h' <;> rfl
  obtain ⟨nc, hnc⟩ : ∃ nc, calculateDotsOrMosaicContourSeeded jm bm margin style seed
      = .ok nc := by
    unfold calculateDotsOrMosaicContourSeeded
    rw [if_neg hguard]
    exact ⟨_, rfl⟩
  unfold calculateContourSeeded at h
  rw [if_pos hbeq, hnc] at h
  have h' : (Except.ok (finishContour style seed (pdpPair bm margin style).1
      (pdpPair bm margin style).2 (roundedPair style nc.shapes nc.dots).2
      (roundedPair style nc.shapes nc.dots).1) : Except String Contour) = Except.ok c := h
  injection h' with h'
  subst h'
  obtain ⟨-, -, hd, hs⟩ := dotsMosaic_closedLoops jm bm margin style seed nc hnc
  unfold finishContour
  rw [if_neg (by rw [hjit]; exact Bool.false_ne_true)]
  unfold roundedPair
  rw [if_neg (by rw [hround]; exact Bool.false_ne_true)]
  exact ⟨(pdpPair_compact_closed bm margin style).1,
    (pdpPair_compact_closed bm margin style).2,
    hd.compact.closed, hs.compact.closed⟩

/-! ## Claim C2: the boundary tracer produces closed loops.

The proof goes through a local theory of the branch tables of
`stepDir`: a *boundary pair* (`Rpair`) is a vertex plus arrival
direction whose traversed edge has fill on its right-hand side.  The
branch tables map boundary pairs to boundary pairs, injectively, and
builder starts step into boundary pairs; from this the extraction walk
is shown to stop either back at its start (odd raw length, closed
as-is), or one step past it (even raw length, closed after the final
hop is dropped), or after a single hop (discarded). -/

instance : Fintype Dir :=
  ⟨⟨{Dir.n, Dir.e, Dir.s, Dir.w}, by decide⟩, by intro x; cases x <;> decide⟩

/-- Unit vector of a travel direction (vertex lattice, y grows south). -/
def dirVec : Dir → ℤ × ℤ
  | Dir.n => (0, -1)
  | Dir.e => (1, 0)
  | Dir.s => (0, 1)
  | Dir.w => (-1, 0)

/-- The unit hop token the extraction emits for a movement direction. -/
def dirTok : Dir → Tok
  | Dir.n => Tok.V (-1)
  | Dir.e => Tok.H 1
  | Dir.s => Tok.V 1
  | Dir.w => Tok.H (-1)

/-- The outgoing direction of the `stepDir` branch tables, as a function
of the four cells around the current vertex (`nw ne sw se`). -/
def locOut (nw ne sw se : Bool) : Dir → Option Dir
  | Dir.n =>
      if ne && !nw then some Dir.n
      else if !ne then some Dir.e
      else if nw && ne then some Dir.w
      else none
  | Dir.e =>
      if se && !ne then some Dir.e
      else if !se then some Dir.s
      else if se && ne then some Dir.n
      else none
  | Dir.s =>
      if sw && !se then some Dir.s
      else if !sw then some Dir.w
      else if se && sw then some Dir.e
      else none
  | Dir.w =>
      if nw && !sw then some Dir.w
      else if !nw then some Dir.n
      else if sw && nw then some Dir.s
      else none

/-- Local boundary-pair test: arriving at the vertex along `d`, the edge
just traversed has fill on the right of travel, in terms of the four
cells around the vertex. -/
def locR (nw ne sw se : Bool) : Dir → Bool
  | Dir.e => sw && !nw
  | Dir.n => se && !sw
  | Dir.s => nw && !ne
  | Dir.w => ne && !se

/-- Local boundary-pair test of the *arrival* pair of a step leaving the
current vertex in direction `d'`, expressed in the current vertex's four
cells (the traversed edge is adjacent to both vertices). -/
def locArr (nw ne sw se : Bool) : Dir → Bool
  | Dir.e => se && !ne
  | Dir.n => ne && !nw
  | Dir.s => sw && !se
  | Dir.w => nw && !sw

/-- `stepDir` factors through the local branch table: the next vertex is
the current one plus the outgoing unit vector. -/
theorem stepDir_eq (b : Bitmask) (cx cy : ℤ) (d : Dir) :
    stepDir b cx cy d =
      (locOut (b.get (cx - 1) (cy - 1)) (b.get cx (cy - 1))
          (b.get (cx - 1) cy) (b.get cx cy) d).map
        (fun d' => ((cx + (dirVec d').1, cy + (dirVec d').2), d')) := by
  cases d <;>
    rcases h1 : b.get (cx - 1) (cy - 1) <;> rcases h2 : b.get cx (cy - 1) <;>
    rcases h3 : b.get (cx - 1) cy <;> rcases h4 : b.get cx cy <;>
    (simp only [sub_eq_add_neg] at h1 h2 h3
     simp [stepDir, locOut, dirVec, h1, h2, h3, h4, sub_eq_add_neg])

/-- The local branch tables are total. -/
theorem locOut_total : ∀ (nw ne sw se : Bool) (d : Dir),
    (locOut nw ne sw se d).isSome = true := by decide

/-- A step from a boundary pair arrives at a boundary pair. -/
theorem locOut_arr : ∀ (nw ne sw se : Bool) (d d' : Dir),
    locR nw ne sw se d = true → locOut nw ne sw se d = some d' →
    locArr nw ne sw se d' = true := by decide

/-- Two boundary pairs at the same vertex never step out in the same
direction. -/
theorem locR_inj : ∀ (nw ne sw se : Bool) (d1 d2 d' : Dir),
    locR nw ne sw se d1 = true → locR nw ne sw se d2 = true →
    locOut nw ne sw se d1 = some d' → locOut nw ne sw se d2 = some d' →
    d1 = d2 := by decide

/-- A builder start (`se` filled, `ne` empty, heading east) steps east. -/
theorem locOut_start : ∀ (nw ne sw se : Bool),
    se = true → ne = false → locOut nw ne sw se Dir.e = some Dir.e := by decide

/-- A builder start's arrival pair is a boundary pair. -/
theorem locArr_start : ∀ (nw ne sw se : Bool),
    se = true → ne = false → locArr nw ne sw se Dir.e = true := by decide

/-- Boundary-pair test at a vertex of the bitmask. -/
def Rpair (b : Bitmask) (p : Vtx) (d : Dir) : Bool :=
  locR (b.get (p.1 - 1) (p.2 - 1)) (b.get p.1 (p.2 - 1))
    (b.get (p.1 - 1) p.2) (b.get p.1 p.2) d

/-- Builder start pair: heading east out of a vertex with the cell to
its south-east filled and the cell to its north-east empty. -/
def StartPair (b : Bitmask) (p : Vtx) (d : Dir) : Prop :=
  d = Dir.e ∧ b.get p.1 p.2 = true ∧ b.get p.1 (p.2 - 1) = false

/-- Total successor on vertex/direction pairs induced by `stepDir`
(which never returns `none`; the `none` fallback is arbitrary). -/
def succPair (b : Bitmask) (x : Vtx × Dir) : Vtx × Dir :=
  match stepDir b x.1.1 x.1.2 x.2 with
  | some (q, d') => (q, d')
  | none => x

/-- The branch tables of `stepDir` are exhaustive. -/
theorem stepDir_isSome (b : Bitmask) (cx cy : ℤ) (d : Dir) :
    (stepDir b cx cy d).isSome = true := by
  rw [stepDir_eq]
  rcases hl : locOut (b.get (cx - 1) (cy - 1)) (b.get cx (cy - 1))
      (b.get (cx - 1) cy) (b.get cx cy) d with _ | d'
  · exact absurd (locOut_total _ _ _ _ d) (by rw [hl]; decide)
  · rfl

/-- `stepDir` agrees with the total successor. -/
theorem stepDir_eq_succPair (b : Bitmask) (p : Vtx) (d : Dir) :
    stepDir b p.1 p.2 d = some (succPair b (p, d)) := by
  unfold succPair
  rcases hs : stepDir b p.1 p.2 d with _ | q
  · exact absurd (stepDir_isSome b p.1 p.2 d) (by rw [hs]; decide)
  · rfl

/-- The successor moves one lattice unit in its recorded direction. -/
theorem succPair_shape (b : Bitmask) (p : Vtx) (d : Dir) :
    succPair b (p, d) =
      ((p.1 + (dirVec (succPair b (p, d)).2).1,
        p.2 + (dirVec (succPair b (p, d)).2).2), (succPair b (p, d)).2) := by
  unfold succPair
  rw [stepDir_eq]
  rcases hl : locOut (b.get (p.1 - 1) (p.2 - 1)) (b.get p.1 (p.2 - 1))
      (b.get (p.1 - 1) p.2) (b.get p.1 p.2) d with _ | d'
  · exact absurd (locOut_total _ _ _ _ d) (by rw [hl]; decide)
  · rfl

/-- Shifting a boundary-pair test to the arrival vertex of a step: the
test reads exactly the two cells shared with the current vertex. -/
theorem Rpair_shift (b : Bitmask) (p : Vtx) (d' : Dir) :
    Rpair b (p.1 + (dirVec d').1, p.2 + (dirVec d').2) d' =
      locArr (b.get (p.1 - 1) (p.2 - 1)) (b.get p.1 (p.2 - 1))
        (b.get (p.1 - 1) p.2) (b.get p.1 p.2) d' := by
  cases d' <;>
    simp [Rpair, locR, locArr, dirVec, sub_eq_add_neg]

/-- Existential form of `succPair_shape`. -/
theorem succPair_shape' (b : Bitmask) (p : Vtx) (d : Dir) :
    ∃ d', succPair b (p, d) =
      ((p.1 + (dirVec d').1, p.2 + (dirVec d').2), d') :=
  ⟨_, succPair_shape b p d⟩

/-- The successor's outgoing direction is the local branch table's. -/
theorem succPair_locOut (b : Bitmask) (p : Vtx) (d : Dir) :
    locOut (b.get (p.1 - 1) (p.2 - 1)) (b.get p.1 (p.2 - 1))
      (b.get (p.1 - 1) p.2) (b.get p.1 p.2) d = some (succPair b (p, d)).2 := by
  unfold succPair
  rw [stepDir_eq]
  rcases hl : locOut (b.get (p.1 - 1) (p.2 - 1)) (b.get p.1 (p.2 - 1))
      (b.get (p.1 - 1) p.2) (b.get p.1 p.2) d with _ | d'
  · exact absurd (locOut_total _ _ _ _ d) (by rw [hl]; decide)
  · rfl

/-- Boundary pairs step to boundary pairs. -/
theorem Rpair_succ (b : Bitmask) (p : Vtx) (d : Dir) (h : Rpair b p d = true) :
    Rpair b (succPair b (p, d)).1 (succPair b (p, d)).2 = true := by
  obtain ⟨d', hd⟩ := succPair_shape' b p d
  have h2 : (succPair b (p, d)).2 = d' := by rw [hd]
  rw [hd]
  show Rpair b (p.1 + (dirVec d').1, p.2 + (dirVec d').2) d' = true
  rw [Rpair_shift]
  refine locOut_arr _ _ _ _ d d' h ?_
  rw [succPair_locOut b p d, h2]

/-- The successor is injective on boundary pairs. -/
theorem Rpair_succ_inj (b : Bitmask) (p1 p2 : Vtx) (d1 d2 : Dir)
    (h1 : Rpair b p1 d1 = true) (h2 : Rpair b p2 d2 = true)
    (he : succPair b (p1, d1) = succPair b (p2, d2)) : (p1, d1) = (p2, d2) := by
  obtain ⟨e1, hd1⟩ := succPair_shape' b p1 d1
  obtain ⟨e2, hd2⟩ := succPair_shape' b p2 d2
  rw [hd1, hd2, Prod.mk.injEq, Prod.mk.injEq] at he
  obtain ⟨⟨hx, hy⟩, hdir⟩ := he
  subst hdir
  have hp : p1 = p2 := by
    have : p1.1 = p2.1 := by omega
    have : p1.2 = p2.2 := by omega
    exact Prod.ext ‹p1.1 = p2.1› ‹p1.2 = p2.2›
  subst hp
  have ho1 := succPair_locOut b p1 d1
  have ho2 := succPair_locOut b p1 d2
  rw [hd1] at ho1
  rw [hd2] at ho2
  have : d1 = d2 := locR_inj _ _ _ _ d1 d2 e1 h1 h2 ho1 ho2
  rw [this]

/-- A true cell read is in range. -/
theorem get_true_range (b : Bitmask) (x y : ℤ) (h : b.get x y = true) :
    0 ≤ x ∧ x < (b.width : ℤ) ∧ 0 ≤ y ∧ y < (b.height : ℤ) := by
  unfold Bitmask.get at h
  by_cases hr : x < 0 ∨ x ≥ (b.width : ℤ) ∨ y < 0 ∨ y ≥ (b.height : ℤ)
  · rw [if_pos hr] at h; exact absurd h (by decide)
  · push_neg at hr; omega

/-- Boundary pairs live on the vertex lattice of the grid. -/
theorem Rpair_boxed (b : Bitmask) (p : Vtx) (d : Dir) (h : Rpair b p d = true) :
    0 ≤ p.1 ∧ p.1 ≤ (b.width : ℤ) ∧ 0 ≤ p.2 ∧ p.2 ≤ (b.height : ℤ) := by
  cases d <;>
    simp only [Rpair, locR, Bool.and_eq_true, Bool.not_eq_true'] at h <;>
    obtain ⟨hg, -⟩ := h <;>
    have := get_true_range b _ _ hg <;> omega

/-- Start pairs live on the vertex lattice of the grid. -/
theorem StartPair_boxed (b : Bitmask) (p : Vtx) (d : Dir) (h : StartPair b p d) :
    0 ≤ p.1 ∧ p.1 ≤ (b.width : ℤ) ∧ 0 ≤ p.2 ∧ p.2 ≤ (b.height : ℤ) := by
  obtain ⟨-, hse, -⟩ := h
  have := get_true_range b _ _ hse
  omega

/-- A start pair steps east into a boundary pair. -/
theorem StartPair_succ (b : Bitmask) (p : Vtx) (d : Dir) (h : StartPair b p d) :
    succPair b (p, d) = ((p.1 + 1, p.2), Dir.e) ∧
      Rpair b (p.1 + 1, p.2) Dir.e = true := by
  obtain ⟨hd, hse, hne⟩ := h
  subst hd
  have hout : locOut (b.get (p.1 - 1) (p.2 - 1)) (b.get p.1 (p.2 - 1))
      (b.get (p.1 - 1) p.2) (b.get p.1 p.2) Dir.e = some Dir.e :=
    locOut_start _ _ _ _ hse hne
  have h2 : (succPair b (p, Dir.e)).2 = Dir.e := by
    have := succPair_locOut b p Dir.e
    rw [hout] at this
    exact (Option.some_inj.mp this).symm
  obtain ⟨d', hd'⟩ := succPair_shape' b p Dir.e
  have hd'e : d' = Dir.e := by rw [hd'] at h2; exact h2.symm ▸ rfl
  subst hd'e
  have hshape : succPair b (p, Dir.e) = ((p.1 + 1, p.2), Dir.e) := by
    rw [hd']; simp [dirVec]
  refine ⟨hshape, ?_⟩
  have := Rpair_shift b p Dir.e
  simp only [dirVec, add_zero] at this
  rw [this]
  exact locArr_start _ _ _ _ hse hne

/-- Membership of a vertex/direction pair in the record map. -/
def memPair (m : Corners) (x : Vtx × Dir) : Prop :=
  (lookupEntry m x.1 x.2).isSome = true

/-- Key-append lookup: an absent key is found at the appended entry. -/
theorem assocFind_append_none (d : Dir) (l1 l2 : List (Dir × Vtx))
    (h : assocFind d l1 = none) : assocFind d (l1 ++ l2) = assocFind d l2 := by
  induction l1 with
  | nil => rfl
  | cons e l1 ih =>
      obtain ⟨ed, ev⟩ := e
      simp only [List.cons_append, assocFind] at h ⊢
      by_cases he : ed = d
      · rw [if_pos he] at h; exact absurd h (by simp)
      · rw [if_neg he] at h ⊢
        exact ih h

/-- Key-append lookup: a present key is unaffected by the append. -/
theorem assocFind_append_some (d : Dir) (l1 l2 : List (Dir × Vtx)) (v : Vtx)
    (h : assocFind d l1 = some v) : assocFind d (l1 ++ l2) = some v := by
  induction l1 with
  | nil => exact absurd h (by simp [assocFind])
  | cons e l1 ih =>
      obtain ⟨ed, ev⟩ := e
      simp only [List.cons_append, assocFind] at h ⊢
      by_cases he : ed = d
      · rwa [if_pos he] at h ⊢
      · rw [if_neg he] at h ⊢
        exact ih h

/-- Lookup after writing an absent key. -/
theorem lookup_setEntry (m : Corners) (p : Vtx) (d : Dir) (v : Vtx)
    (hnone : lookupEntry m p d = none) (p' : Vtx) (d' : Dir) :
    lookupEntry (setEntry m p d v) p' d' =
      if p' = p ∧ d' = d then some v else lookupEntry m p' d' := by
  unfold lookupEntry setEntry
  by_cases hp : p' = p
  · rw [if_pos hp]
    subst hp
    by_cases hd : d' = d
    · subst hd
      rw [if_pos ⟨rfl, rfl⟩]
      rw [assocFind_append_none d' _ _ hnone]
      simp [assocFind]
    · rw [if_neg (by tauto)]
      rcases hl : assocFind d' (m p') with _ | w
      · rw [assocFind_append_none d' _ _ hl]
        simp only [assocFind]
        rw [if_neg (fun h => hd h.symm)]
      · exact assocFind_append_some d' _ _ w hl
  · rw [if_neg hp, if_neg (by tauto)]

/-- Filtered lookup: the deleted key reads `none`. -/
theorem assocFind_filter_self (d : Dir) (l : List (Dir × Vtx)) :
    assocFind d (l.filter (fun e => ¬(e.1 = d))) = none := by
  induction l with
  | nil => rfl
  | cons e l ih =>
      obtain ⟨ed, ev⟩ := e
      rw [List.filter_cons]
      by_cases he : ed = d
      · rw [if_neg (by simp [he])]
        exact ih
      · rw [if_pos (by simp [he])]
        simp only [assocFind]
        rw [if_neg he]
        exact ih

/-- Filtered lookup: other keys are untouched. -/
theorem assocFind_filter_other (d d' : Dir) (l : List (Dir × Vtx)) (hd : d' ≠ d) :
    assocFind d' (l.filter (fun e => ¬(e.1 = d))) = assocFind d' l := by
  induction l with
  | nil => rfl
  | cons e l ih =>
      obtain ⟨ed, ev⟩ := e
      rw [List.filter_cons]
      by_cases he : ed = d
      · rw [if_neg (by simp [he])]
        rw [ih]
        simp only [assocFind]
        rw [if_neg (by rw [he]; exact fun h => hd h.symm)]
      · rw [if_pos (by simp [he])]
        simp only [assocFind]
        by_cases he' : ed = d'
        · rw [if_pos he', if_pos he']
        · rw [if_neg he', if_neg he']
          exact ih

/-- Lookup after deleting a key. -/
theorem lookup_delEntry (m : Corners) (p : Vtx) (d : Dir) (p' : Vtx) (d' : Dir) :
    lookupEntry (delEntry m p d) p' d' =
      if p' = p ∧ d' = d then none else lookupEntry m p' d' := by
  unfold lookupEntry delEntry
  by_cases hp : p' = p
  · rw [if_pos hp]
    subst hp
    by_cases hd : d' = d
    · subst hd
      rw [if_pos ⟨rfl, rfl⟩]
      exact assocFind_filter_self d' (m p')
    · rw [if_neg (by tauto)]
      exact assocFind_filter_other d d' (m p') hd
  · rw [if_neg hp, if_neg (by tauto)]

/-- The head key of a vertex's record list is present. -/
theorem lookup_of_head (m : Corners) (v : Vtx) (d0 : Dir) (w : Vtx)
    (h : (m v).head? = some (d0, w)) : lookupEntry m v d0 = some w := by
  rcases hl : m v with _ | ⟨e, rest⟩
  · rw [hl] at h; exact absurd h (by simp)
  · rw [hl] at h
    simp only [List.head?_cons, Option.some.injEq] at h
    subst h
    unfold lookupEntry
    rw [hl]
    unfold assocFind
    rw [if_pos rfl]

/-- All vertex/direction pairs on the vertex lattice of the grid. -/
def boxPairs (b : Bitmask) : Finset (Vtx × Dir) :=
  ((Finset.Icc (0 : ℤ) (b.width : ℤ)) ×ˢ (Finset.Icc (0 : ℤ) (b.height : ℤ))) ×ˢ
    (Finset.univ : Finset Dir)

theorem mem_boxPairs (b : Bitmask) (x : Vtx × Dir) :
    x ∈ boxPairs b ↔
      0 ≤ x.1.1 ∧ x.1.1 ≤ (b.width : ℤ) ∧ 0 ≤ x.1.2 ∧ x.1.2 ≤ (b.height : ℤ) := by
  unfold boxPairs
  simp only [Finset.mem_product, Finset.mem_Icc, Finset.mem_univ, and_true]
  tauto

/-- Number of recorded lattice pairs (all recorded pairs are on the
lattice whenever the invariant below holds). -/
def cMeasure (b : Bitmask) (m : Corners) : ℕ :=
  ((boxPairs b).filter (fun x => (lookupEntry m x.1 x.2).isSome = true)).card

theorem cMeasure_le (b : Bitmask) (m : Corners) :
    cMeasure b m ≤ (boxPairs b).card :=
  Finset.card_filter_le _ _

/-- Writing an absent lattice pair grows the measure by one. -/
theorem cMeasure_setEntry (b : Bitmask) (m : Corners) (p : Vtx) (d : Dir) (v : Vtx)
    (hnone : lookupEntry m p d = none) (hbox : (p, d) ∈ boxPairs b) :
    cMeasure b (setEntry m p d v) = cMeasure b m + 1 := by
  unfold cMeasure
  have hset : (boxPairs b).filter
      (fun x => (lookupEntry (setEntry m p d v) x.1 x.2).isSome = true) =
      insert (p, d) ((boxPairs b).filter
        (fun x => (lookupEntry m x.1 x.2).isSome = true)) := by
    ext x
    simp only [Finset.mem_filter, Finset.mem_insert]
    rw [lookup_setEntry m p d v hnone x.1 x.2]
    by_cases hx : x = (p, d)
    · subst hx
      simp [hbox]
    · have hx' : ¬(x.1 = p ∧ x.2 = d) := by
        intro ⟨h1, h2⟩
        exact hx (Prod.ext h1 h2)
      rw [if_neg hx']
      tauto
  rw [hset, Finset.card_insert_of_not_mem]
  simp [hnone]

/-- Invariant of the record map maintained by the builder: every entry
is the `stepDir` step of its pair; every recorded pair is a boundary or
start pair on the lattice; the successor of a recorded pair is recorded. -/
structure BuildInv (b : Bitmask) (m : Corners) : Prop where
  entries : ∀ p d v, lookupEntry m p d = some v → v = (succPair b (p, d)).1
  rs : ∀ x, memPair m x → Rpair b x.1 x.2 = true ∨ StartPair b x.1 x.2
  boxed : ∀ x, memPair m x → x ∈ boxPairs b
  closed : ∀ x, memPair m x → memPair m (succPair b x)

/-- The builder's inner walk establishes the builder invariant: given a
map whose recorded pairs are all forward-closed except possibly into the
walk's current pair, enough fuel, and a current pair that is a boundary
or start pair on the lattice, the resulting map satisfies `BuildInv`. -/
theorem builderWalk_inv (b : Bitmask) (fuel : ℕ) :
    ∀ (p : Vtx) (d : Dir) (m : Corners),
      (∀ p' d' v, lookupEntry m p' d' = some v → v = (succPair b (p', d')).1) →
      (∀ x, memPair m x → Rpair b x.1 x.2 = true ∨ StartPair b x.1 x.2) →
      (∀ x, memPair m x → x ∈ boxPairs b) →
      (∀ x, memPair m x → memPair m (succPair b x) ∨ succPair b x = (p, d)) →
      (Rpair b p d = true ∨ StartPair b p d) →
      (p, d) ∈ boxPairs b →
      (boxPairs b).card + 1 ≤ cMeasure b m + fuel →
      BuildInv b (builderWalk b fuel p d m) := by
  induction fuel with
  | zero =>
      intro p d m _ _ _ _ _ _ hfuel
      exact absurd hfuel (by have := cMeasure_le b m; omega)
  | succ fuel ih =>
      intro p d m hent hrs hbox hcl hpd hpbox hfuel
      show BuildInv b (builderWalk b (fuel + 1) p d m)
      unfold builderWalk
      by_cases hm : (lookupEntry m p d).isSome = true
      · rw [if_pos hm]
        refine ⟨hent, hrs, hbox, fun x hx => ?_⟩
        rcases hcl x hx with h | h
        · exact h
        · rw [h]; exact hm
      · rw [if_neg hm]
        have hnone : lookupEntry m p d = none := by
          rcases hl : lookupEntry m p d with _ | v
          · rfl
          · exact absurd (by rw [hl]; rfl) hm
        have hs := stepDir_eq_succPair b p d
        rcases hsp : succPair b (p, d) with ⟨q, d'⟩
        rw [hsp] at hs
        rw [hs]
        show BuildInv b (builderWalk b fuel q d' (setEntry m p d q))
        have hmem2 : ∀ x, memPair (setEntry m p d q) x ↔
            (x = (p, d) ∨ memPair m x) := by
          intro x
          unfold memPair
          rw [lookup_setEntry m p d q hnone x.1 x.2]
          by_cases hx : x = (p, d)
          · subst hx
            simp
          · rw [if_neg (fun ⟨h1, h2⟩ => hx (Prod.ext h1 h2))]
            simp [hx]
        have hRnew : Rpair b q d' = true := by
          rcases hpd with hR | hS
          · have := Rpair_succ b p d hR
            rw [hsp] at this
            exact this
          · obtain ⟨heq, hR⟩ := StartPair_succ b p d hS
            rw [hsp] at heq
            obtain ⟨h1, h2⟩ := Prod.mk.injEq .. ▸ heq
            rw [h1, h2]
            exact hR
        refine ih q d' (setEntry m p d q) ?_ ?_ ?_ ?_ (Or.inl hRnew) ?_ ?_
        · intro p' d'' v hv
          rw [lookup_setEntry m p d q hnone p' d''] at hv
          by_cases hx : p' = p ∧ d'' = d
          · rw [if_pos hx] at hv
            obtain ⟨h1, h2⟩ := hx
            subst h1; subst h2
            rw [hsp, ← Option.some_inj.mp hv]
          · rw [if_neg hx] at hv
            exact hent p' d'' v hv
        · intro x hx
          rcases (hmem2 x).mp hx with h | h
          · subst h; exact hpd
          · exact hrs x h
        · intro x hx
          rcases (hmem2 x).mp hx with h | h
          · subst h; exact hpbox
          · exact hbox x h
        · intro x hx
          rcases (hmem2 x).mp hx with h | h
          · subst h
            rw [hsp]
            exact Or.inr rfl
          · rcases hcl x h with h2 | h2
            · exact Or.inl ((hmem2 _).mpr (Or.inr h2))
            · exact Or.inl ((hmem2 _).mpr (Or.inl h2))
        · rw [mem_boxPairs]
          have := Rpair_boxed b q d' hRnew
          exact this
        · rw [cMeasure_setEntry b m p d q hnone hpbox]
          omega

theorem card_univ_dir : (Finset.univ : Finset Dir).card = 4 := rfl

theorem card_boxPairs (b : Bitmask) :
    (boxPairs b).card = (b.width + 1) * (b.height + 1) * 4 := by
  unfold boxPairs
  rw [Finset.card_product, Finset.card_product, card_univ_dir,
    Int.card_Icc, Int.card_Icc]
  have h1 : ((b.width : ℤ) + 1 - 0).toNat = b.width + 1 := by omega
  have h2 : ((b.height : ℤ) + 1 - 0).toNat = b.height + 1 := by omega
  rw [h1, h2]

theorem emptyCorners_inv (b : Bitmask) : BuildInv b emptyCorners := by
  have hnone : ∀ (p : Vtx) (d : Dir), lookupEntry emptyCorners p d = none := by
    intro p d; rfl
  refine ⟨?_, ?_, ?_, ?_⟩ <;> intro x <;>
    first
      | (intro d v h; rw [hnone] at h; exact absurd h (by simp))
      | (intro h; exact absurd h (by unfold memPair; rw [hnone]; simp))

theorem builderVertex_inv (b : Bitmask) (m : Corners) (x y : ℤ)
    (hinv : BuildInv b m) : BuildInv b (builderVertex b (tracerFuel b) m x y) := by
  unfold builderVertex
  by_cases h1 : (lookupEntry m (x, y) Dir.e).isSome = true
  · rwa [if_pos h1]
  · rw [if_neg h1]
    by_cases h2 : (b.get x y == b.get (x - 1) y && b.get x y == b.get x (y - 1)
        && b.get x y == b.get (x - 1) (y - 1)) = true
    · rwa [if_pos h2]
    · rw [if_neg h2]
      by_cases h3 : (b.get x (y - 1) || !b.get x y) = true
      · rwa [if_pos h3]
      · rw [if_neg h3]
        have hne : b.get x (y - 1) = false ∧ b.get x y = true := by
          rcases hg1 : b.get x (y - 1) <;> rcases hg2 : b.get x y <;>
            rw [hg1, hg2] at h3 <;> simp_all
        have hstart : StartPair b (x, y) Dir.e := ⟨rfl, hne.2, hne.1⟩
        refine builderWalk_inv b (tracerFuel b) (x, y) Dir.e m hinv.entries hinv.rs
          hinv.boxed (fun z hz => Or.inl (hinv.closed z hz)) (Or.inr hstart) ?_ ?_
        · rw [mem_boxPairs]
          exact StartPair_boxed b (x, y) Dir.e hstart
        · rw [card_boxPairs]
          unfold tracerFuel
          have := Nat.zero_le (cMeasure b m)
          nlinarith [Nat.zero_le (cMeasure b m)]

theorem buildCorners_inv (b : Bitmask) : BuildInv b (buildCorners b) := by
  unfold buildCorners
  refine foldl_preserve (BuildInv b) _ _ _ (emptyCorners_inv b) ?_
  intro m y hm
  refine foldl_preserve (BuildInv b) _ _ _ hm ?_
  intro m' x hm'
  exact builderVertex_inv b m' (x : ℤ) (y : ℤ) hm'

/-- The pair sequence of a walk: iterated total successor. -/
def walkSeq (b : Bitmask) (x0 : Vtx × Dir) : ℕ → Vtx × Dir
  | 0 => x0
  | k + 1 => succPair b (walkSeq b x0 k)

/-- The hop tokens the extraction emits along the first `k` steps. -/
def hopList (b : Bitmask) (x0 : Vtx × Dir) (k : ℕ) : List Tok :=
  (List.range k).map (fun i => dirTok ((walkSeq b x0 (i + 1)).2))

/-- Step `k` of a walk is *live*: its pair is recorded in the starting
map and differs from every earlier pair of the walk. -/
def presentAt (b : Bitmask) (m0 : Corners) (x0 : Vtx × Dir) (k : ℕ) : Prop :=
  memPair m0 (walkSeq b x0 k) ∧ ∀ j < k, walkSeq b x0 k ≠ walkSeq b x0 j

instance (b : Bitmask) (m0 : Corners) (x0 : Vtx × Dir) (k : ℕ) :
    Decidable (presentAt b m0 x0 k) := by
  unfold presentAt memPair
  infer_instance

/-- Any walk over a lattice-supported map goes dead within the number of
lattice pairs: its live steps are pairwise distinct lattice pairs. -/
theorem exists_not_presentAt (b : Bitmask) (m0 : Corners) (x0 : Vtx × Dir)
    (hbox : ∀ x, memPair m0 x → x ∈ boxPairs b) :
    ∃ k, ¬ presentAt b m0 x0 k := by
  by_contra hall
  push_neg at hall
  have hmaps : ∀ i : Fin ((boxPairs b).card + 1), walkSeq b x0 (i : ℕ) ∈ boxPairs b :=
    fun i => hbox _ (hall i).1
  obtain ⟨i, -, j, -, hne, heq⟩ :=
    Finset.exists_ne_map_eq_of_card_lt_of_maps_to
      (by simp : (boxPairs b).card < (Finset.univ : Finset (Fin ((boxPairs b).card + 1))).card)
      (fun i _ => hmaps i)
  rcases Nat.lt_or_ge (i : ℕ) (j : ℕ) with hij | hij
  · exact (hall j).2 i hij heq.symm
  · have hij' : (j : ℕ) < (i : ℕ) := by
      rcases Nat.eq_or_lt_of_le hij with h | h
      · exact absurd (Fin.ext h.symm) hne
      · exact h
    exact (hall i).2 j hij' heq

/-- The extraction's four-way movement comparison recovers the direction
and unit hop of a lattice step. -/
theorem extract_step_eq (p q : Vtx) (d d' : Dir)
    (h : q = (p.1 + (dirVec d').1, p.2 + (dirVec d').2)) :
    (if q.1 > p.1 then ((Dir.e, Tok.H 1) : Dir × Tok)
     else if q.1 < p.1 then (Dir.w, Tok.H (-1))
     else if q.2 > p.2 then (Dir.s, Tok.V 1)
     else if q.2 < p.2 then (Dir.n, Tok.V (-1))
     else (d, Tok.H 0)) = (d', dirTok d') := by
  subst h
  cases d' <;> simp [dirVec, dirTok]

/-- Replaying a unit hop token adds the direction's unit vector. -/
theorem tokMove_dirTok (st : (ℚ × ℚ) × (ℚ × ℚ)) (d : Dir) :
    tokMove st (dirTok d) =
      ((st.1.1 + ((dirVec d).1 : ℤ), st.1.2 + ((dirVec d).2 : ℤ)), st.2) := by
  cases d <;> simp [dirTok, dirVec, tokMove]

/-- Pair-argument form of `succPair_shape'`. -/
theorem succPair_shape2 (b : Bitmask) (x : Vtx × Dir) :
    ∃ d', succPair b x = ((x.1.1 + (dirVec d').1, x.1.2 + (dirVec d').2), d') := by
  have := succPair_shape' b x.1 x.2
  simpa using this

/-- Pair-argument form of the entry condition. -/
theorem entries_pair (b : Bitmask) (m : Corners)
    (hent : ∀ p d v, lookupEntry m p d = some v → v = (succPair b (p, d)).1)
    (x : Vtx × Dir) (v : Vtx) (hv : lookupEntry m x.1 x.2 = some v) :
    v = (succPair b x).1 := by
  have := hent x.1 x.2 v hv
  simpa using this

/-- One-step unfolding of the extraction walk. -/
theorem extractWalk_succ (fuel : ℕ) (p : Vtx) (d : Dir) (m : Corners)
    (path : List Tok) :
    extractWalk (fuel + 1) p d m path =
      match lookupEntry m p d with
      | none => (m, path)
      | some nxt =>
          extractWalk fuel nxt
            (if nxt.1 > p.1 then ((Dir.e, Tok.H 1) : Dir × Tok)
             else if nxt.1 < p.1 then (Dir.w, Tok.H (-1))
             else if nxt.2 > p.2 then (Dir.s, Tok.V 1)
             else if nxt.2 < p.2 then (Dir.n, Tok.V (-1))
             else (d, Tok.H 0)).1 (delEntry m p d)
            (path ++ [(if nxt.1 > p.1 then ((Dir.e, Tok.H 1) : Dir × Tok)
             else if nxt.1 < p.1 then (Dir.w, Tok.H (-1))
             else if nxt.2 > p.2 then (Dir.s, Tok.V 1)
             else if nxt.2 < p.2 then (Dir.n, Tok.V (-1))
             else (d, Tok.H 0)).2]) := rfl

/-- Characterization of the extraction walk: starting at live step `k`
of the walk with the first `k` pairs deleted, it consumes exactly the
remaining live pairs, emits their hop tokens, and stops at the first
dead step. -/
theorem extractWalk_spec (b : Bitmask) (m0 : Corners) (x0 : Vtx × Dir)
    (hent : ∀ p d v, lookupEntry m0 p d = some v → v = (succPair b (p, d)).1)
    (K : ℕ) (hK : ¬ presentAt b m0 x0 K)
    (hKmin : ∀ j, j < K → presentAt b m0 x0 j) :
    ∀ (fuel k : ℕ) (m : Corners) (path : List Tok),
      k ≤ K → K ≤ k + fuel →
      (∀ y : Vtx × Dir, lookupEntry m y.1 y.2 =
        if ∃ j, j < k ∧ y = walkSeq b x0 j then none else lookupEntry m0 y.1 y.2) →
      ∃ mK : Corners,
        extractWalk fuel (walkSeq b x0 k).1 (walkSeq b x0 k).2 m path =
          (mK, path ++ (List.range (K - k)).map
            (fun i => dirTok ((walkSeq b x0 (k + i + 1)).2))) ∧
        (∀ y : Vtx × Dir, lookupEntry mK y.1 y.2 =
          if ∃ j, j < K ∧ y = walkSeq b x0 j then none
          else lookupEntry m0 y.1 y.2) := by
  intro fuel
  induction fuel with
  | zero =>
      intro k m path hkK hKk hm
      have hke : k = K := by omega
      subst hke
      refine ⟨m, ?_, hm⟩
      simp [extractWalk]
  | succ fuel ih =>
      intro k m path hkK hKk hm
      by_cases hke : K = k
      · subst hke
        have hdead : lookupEntry m (walkSeq b x0 K).1 (walkSeq b x0 K).2 = none := by
          rw [hm (walkSeq b x0 K)]
          by_cases hrev : ∃ j, j < K ∧ walkSeq b x0 K = walkSeq b x0 j
          · rw [if_pos hrev]
          · rw [if_neg hrev]
            push_neg at hrev
            have hnm : ¬ memPair m0 (walkSeq b x0 K) :=
              fun hmem => hK ⟨hmem, hrev⟩
            unfold memPair at hnm
            rcases hl : lookupEntry m0 (walkSeq b x0 K).1 (walkSeq b x0 K).2 with _ | v
            · rfl
            · rw [hl] at hnm
              exact absurd rfl hnm
        refine ⟨m, ?_, hm⟩
        rw [extractWalk_succ, hdead]
        simp
      · have hkK' : k < K := by
          rcases Nat.lt_or_ge k K with h | h
          · exact h
          · exact absurd (by omega : K = k) hke
        obtain ⟨hmem, hdist⟩ := hKmin k hkK'
        obtain ⟨v, hv⟩ : ∃ v, lookupEntry m0 (walkSeq b x0 k).1
            (walkSeq b x0 k).2 = some v := by
          unfold memPair at hmem
          rcases hl : lookupEntry m0 (walkSeq b x0 k).1 (walkSeq b x0 k).2 with _ | v
          · rw [hl] at hmem
            exact absurd hmem (by simp)
          · exact ⟨v, rfl⟩
        have hvm : lookupEntry m (walkSeq b x0 k).1 (walkSeq b x0 k).2 = some v := by
          rw [hm (walkSeq b x0 k)]
          rw [if_neg ?_]
          · exact hv
          · rintro ⟨j, hj, he⟩
            exact hdist j hj he
        have hvsucc : v = (succPair b (walkSeq b x0 k)).1 :=
          entries_pair b m0 hent (walkSeq b x0 k) v hv
        obtain ⟨d', hd'⟩ := succPair_shape2 b (walkSeq b x0 k)
        have hnext : walkSeq b x0 (k + 1) = succPair b (walkSeq b x0 k) := rfl
        have hd2 : (walkSeq b x0 (k + 1)).2 = d' := by rw [hnext, hd']
        have hv1 : v = ((walkSeq b x0 k).1.1 + (dirVec d').1,
            (walkSeq b x0 k).1.2 + (dirVec d').2) := by
          rw [hvsucc, hd']
        have hvfst : v = (walkSeq b x0 (k + 1)).1 := by
          rw [hnext, ← hvsucc]
        rw [extractWalk_succ, hvm]
        have hstep := extract_step_eq (walkSeq b x0 k).1 v (walkSeq b x0 k).2 d' hv1
        simp only [hstep]
        have hm' : ∀ y : Vtx × Dir,
            lookupEntry (delEntry m (walkSeq b x0 k).1 (walkSeq b x0 k).2) y.1 y.2 =
              if ∃ j, j < k + 1 ∧ y = walkSeq b x0 j then none
              else lookupEntry m0 y.1 y.2 := by
          intro y
          rw [lookup_delEntry, hm y]
          by_cases hy : y = walkSeq b x0 k
          · rw [if_pos (by rw [hy]; exact ⟨rfl, rfl⟩)]
            rw [if_pos ⟨k, by omega, hy⟩]
          · rw [if_neg (fun ⟨h1, h2⟩ => hy (Prod.ext h1 h2))]
            by_cases hex : ∃ j, j < k ∧ y = walkSeq b x0 j
            · obtain ⟨j, hj, he⟩ := hex
              rw [if_pos ⟨j, hj, he⟩, if_pos ⟨j, by omega, he⟩]
            · rw [if_neg hex, if_neg ?_]
              rintro ⟨j, hj, he⟩
              rcases Nat.lt_or_ge j k with hjk | hjk
              · exact hex ⟨j, hjk, he⟩
              · have : j = k := by omega
                subst this
                exact hy he
        obtain ⟨mK, hrun, hmap⟩ := ih (k + 1)
          (delEntry m (walkSeq b x0 k).1 (walkSeq b x0 k).2)
          (path ++ [dirTok d']) (by omega) (by omega) hm'
        refine ⟨mK, ?_, hmap⟩
        rw [← hd2] at hrun ⊢
        rw [← hvfst] at hrun
        rw [hrun]
        have hlist : (List.range (K - k)).map
            (fun i => dirTok ((walkSeq b x0 (k + i + 1)).2)) =
            dirTok ((walkSeq b x0 (k + 1)).2) ::
              (List.range (K - (k + 1))).map
                (fun i => dirTok ((walkSeq b x0 (k + 1 + i + 1)).2)) := by
          have h1 : K - k = (K - (k + 1)) + 1 := by omega
          rw [h1, List.range_succ_eq_map, List.map_cons, List.map_map]
          congr 1
          apply List.map_congr_left
          intro i _
          have he : k + (i + 1) + 1 = k + 1 + i + 1 := by omega
          show dirTok ((walkSeq b x0 (k + (i + 1) + 1)).2) = _
          rw [he]
        rw [hlist, List.append_assoc]
        rfl

/-- Pair-argument form of boundary-pair preservation. -/
theorem Rpair_succ2 (b : Bitmask) (x : Vtx × Dir) (h : Rpair b x.1 x.2 = true) :
    Rpair b (succPair b x).1 (succPair b x).2 = true := by
  have := Rpair_succ b x.1 x.2 h
  simpa using this

/-- Pair-argument form of the start step. -/
theorem StartPair_succ2 (b : Bitmask) (x : Vtx × Dir) (h : StartPair b x.1 x.2) :
    succPair b x = ((x.1.1 + 1, x.1.2), Dir.e) ∧
      Rpair b (x.1.1 + 1, x.1.2) Dir.e = true := by
  have := StartPair_succ b x.1 x.2 h
  simpa using this

/-- Pair-argument form of boundary-pair injectivity. -/
theorem Rpair_succ_inj2 (b : Bitmask) (x y : Vtx × Dir)
    (hx : Rpair b x.1 x.2 = true) (hy : Rpair b y.1 y.2 = true)
    (he : succPair b x = succPair b y) : x = y := by
  have := Rpair_succ_inj b x.1 y.1 x.2 y.2 hx hy (by simpa using he)
  calc x = (x.1, x.2) := rfl
    _ = (y.1, y.2) := this
    _ = y := rfl

/-- Once a walk step is a boundary pair, all later steps are. -/
theorem walkSeq_R_after (b : Bitmask) (x0 : Vtx × Dir) (k : ℕ)
    (hR : Rpair b (walkSeq b x0 k).1 (walkSeq b x0 k).2 = true) :
    ∀ i, k ≤ i → Rpair b (walkSeq b x0 i).1 (walkSeq b x0 i).2 = true := by
  intro i hi
  induction i with
  | zero =>
      have : k = 0 := by omega
      subst this
      exact hR
  | succ i ih =>
      rcases Nat.lt_or_ge k (i + 1) with h | h
      · have := ih (by omega)
        show Rpair b (succPair b (walkSeq b x0 i)).1 (succPair b (walkSeq b x0 i)).2 = true
        exact Rpair_succ2 b _ this
      · have : k = i + 1 := by omega
        subst this
        exact hR

/-- The walk trichotomy: under the extraction invariant, a walk starting
at a recorded pair goes dead either (boundary start) exactly back at its
start, or (non-boundary start) after one hop, or exactly back at its
second pair. -/
theorem walk_trichotomy (b : Bitmask) (m0 : Corners) (x0 : Vtx × Dir)
    (hrs : ∀ x, memPair m0 x → Rpair b x.1 x.2 = true ∨ StartPair b x.1 x.2)
    (hclR : ∀ x, memPair m0 x → Rpair b x.1 x.2 = true → memPair m0 (succPair b x))
    (hmem : memPair m0 x0)
    (K : ℕ) (hK : ¬ presentAt b m0 x0 K)
    (hKmin : ∀ j, j < K → presentAt b m0 x0 j) :
    1 ≤ K ∧
      ((Rpair b x0.1 x0.2 = true ∧ walkSeq b x0 K = x0) ∨
       (Rpair b x0.1 x0.2 = false ∧ K = 1) ∨
       (Rpair b x0.1 x0.2 = false ∧ 2 ≤ K ∧ walkSeq b x0 K = walkSeq b x0 1)) := by
  have hK1 : 1 ≤ K := by
    rcases Nat.eq_zero_or_pos K with h | h
    · subst h
      exact absurd ⟨hmem, fun j hj => absurd hj (by omega)⟩ hK
    · exact h
  have hKsucc : walkSeq b x0 K = succPair b (walkSeq b x0 (K - 1)) := by
    have h1 : K - 1 + 1 = K := by omega
    rw [← h1]
    rfl
  refine ⟨hK1, ?_⟩
  by_cases hR : Rpair b x0.1 x0.2 = true
  · -- boundary start: every step is a boundary pair
    left
    refine ⟨hR, ?_⟩
    have hall : ∀ i, Rpair b (walkSeq b x0 i).1 (walkSeq b x0 i).2 = true :=
      fun i => walkSeq_R_after b x0 0 hR i (by omega)
    have hmemK : memPair m0 (walkSeq b x0 K) := by
      have hm1 := (hKmin (K - 1) (by omega)).1
      rw [hKsucc]
      exact hclR _ hm1 (hall (K - 1))
    have hrev : ∃ j, j < K ∧ walkSeq b x0 K = walkSeq b x0 j := by
      by_contra hno
      push_neg at hno
      exact hK ⟨hmemK, hno⟩
    obtain ⟨j, hj, he⟩ := hrev
    rcases Nat.eq_zero_or_pos j with hj0 | hj0
    · subst hj0
      exact he
    · exfalso
      have hjsucc : walkSeq b x0 j = succPair b (walkSeq b x0 (j - 1)) := by
        have h1 : j - 1 + 1 = j := by omega
        rw [← h1]
        rfl
      have heq : succPair b (walkSeq b x0 (K - 1)) =
          succPair b (walkSeq b x0 (j - 1)) := by
        rw [← hKsucc, ← hjsucc, he]
      have := Rpair_succ_inj2 b _ _ (hall (K - 1)) (hall (j - 1)) heq
      exact (hKmin (K - 1) (by omega)).2 (j - 1) (by omega) this
  · have hRf : Rpair b x0.1 x0.2 = false := by
      rcases h : Rpair b x0.1 x0.2
      · rfl
      · exact absurd h hR
    have hstart : StartPair b x0.1 x0.2 := by
      rcases hrs x0 hmem with h | h
      · exact absurd h hR
      · exact h
    obtain ⟨hs1, hs2⟩ := StartPair_succ2 b x0 hstart
    have hall1 : ∀ i, 1 ≤ i →
        Rpair b (walkSeq b x0 i).1 (walkSeq b x0 i).2 = true := by
      refine walkSeq_R_after b x0 1 ?_
      show Rpair b (succPair b x0).1 (succPair b x0).2 = true
      rw [hs1]
      exact hs2
    by_cases hKe : K = 1
    · right; left
      exact ⟨hRf, hKe⟩
    · right; right
      have hK2 : 2 ≤ K := by omega
      refine ⟨hRf, hK2, ?_⟩
      have hmemK : memPair m0 (walkSeq b x0 K) := by
        have hm1 := (hKmin (K - 1) (by omega)).1
        rw [hKsucc]
        exact hclR _ hm1 (hall1 (K - 1) (by omega))
      have hrev : ∃ j, j < K ∧ walkSeq b x0 K = walkSeq b x0 j := by
        by_contra hno
        push_neg at hno
        exact hK ⟨hmemK, hno⟩
      obtain ⟨j, hj, he⟩ := hrev
      have hKR : Rpair b (walkSeq b x0 K).1 (walkSeq b x0 K).2 = true :=
        hall1 K (by omega)
      rcases Nat.eq_zero_or_pos j with hj0 | hj0
      · exfalso
        subst hj0
        rw [he] at hKR
        exact hR hKR
      · rcases Nat.eq_or_lt_of_le hj0 with hj1 | hj1
        · rw [← hj1] at he
          exact he
        · exfalso
          have hjsucc : walkSeq b x0 j = succPair b (walkSeq b x0 (j - 1)) := by
            have h1 : j - 1 + 1 = j := by omega
            rw [← h1]
            rfl
          have heq : succPair b (walkSeq b x0 (K - 1)) =
              succPair b (walkSeq b x0 (j - 1)) := by
            rw [← hKsucc, ← hjsucc, he]
          have := Rpair_succ_inj2 b _ _ (hall1 (K - 1) (by omega))
            (hall1 (j - 1) (by omega)) heq
          exact (hKmin (K - 1) (by omega)).2 (j - 1) (by omega) this

/-- Walk-position parity: each hop changes the coordinate sum by ±1, so
after `k` hops the sum differs from the start by `k` minus twice some
integer. -/
theorem walkSeq_parity (b : Bitmask) (x0 : Vtx × Dir) :
    ∀ k : ℕ, ∃ t : ℤ,
      (walkSeq b x0 k).1.1 + (walkSeq b x0 k).1.2 =
        x0.1.1 + x0.1.2 + (k : ℤ) - 2 * t := by
  intro k
  induction k with
  | zero => exact ⟨0, by simp [walkSeq]⟩
  | succ k ih =>
      obtain ⟨t, ht⟩ := ih
      obtain ⟨d', hd'⟩ := succPair_shape2 b (walkSeq b x0 k)
      have hstep : walkSeq b x0 (k + 1) = succPair b (walkSeq b x0 k) := rfl
      have hsum : (dirVec d').1 + (dirVec d').2 = 1 ∨
          (dirVec d').1 + (dirVec d').2 = -1 := by
        cases d' <;> simp [dirVec]
      rw [hstep, hd']
      rcases hsum with h | h
      · exact ⟨t, by push_cast; omega⟩
      · exact ⟨t + 1, by push_cast; omega⟩

/-- One more hop in the hop list. -/
theorem hopList_succ (b : Bitmask) (x0 : Vtx × Dir) (k : ℕ) :
    hopList b x0 (k + 1) =
      hopList b x0 k ++ [dirTok ((walkSeq b x0 (k + 1)).2)] := by
  unfold hopList
  rw [List.range_succ, List.map_append]
  rfl

/-- Replaying the hop list moves the position by the walk's displacement
and leaves the loop-start register untouched. -/
theorem replay_hopList (b : Bitmask) (x0 : Vtx × Dir) (mx my : ℚ) :
    ∀ k : ℕ,
      replay (hopList b x0 k) ((mx, my), (mx, my)) =
        ((mx + (((walkSeq b x0 k).1.1 - x0.1.1 : ℤ) : ℚ),
          my + (((walkSeq b x0 k).1.2 - x0.1.2 : ℤ) : ℚ)), (mx, my)) := by
  intro k
  induction k with
  | zero =>
      show replay [] ((mx, my), (mx, my)) = _
      simp [replay, walkSeq]
  | succ k ih =>
      rw [hopList_succ, replay_append, ih, replay_single, tokMove_dirTok]
      obtain ⟨d', hd'⟩ := succPair_shape2 b (walkSeq b x0 k)
      have hstep : walkSeq b x0 (k + 1) = succPair b (walkSeq b x0 k) := rfl
      have hd2 : (walkSeq b x0 (k + 1)).2 = d' := by rw [hstep, hd']
      have hco : (walkSeq b x0 (k + 1)).1.1 =
            (walkSeq b x0 k).1.1 + (dirVec d').1 ∧
          (walkSeq b x0 (k + 1)).1.2 =
            (walkSeq b x0 k).1.2 + (dirVec d').2 := by
        rw [hstep, hd']
        exact ⟨rfl, rfl⟩
      rw [hd2, hco.1, hco.2]
      push_cast
      simp only [Prod.mk.injEq, and_true]
      exact ⟨by ring, by ring⟩

/-- Hop lists contain no `MoveTo`. -/
theorem noM_hopList (b : Bitmask) (x0 : Vtx × Dir) (k : ℕ) :
    noM (hopList b x0 k) = true := by
  unfold noM hopList
  refine List.all_eq_true.mpr ?_
  intro t ht
  obtain ⟨i, -, rfl⟩ := List.mem_map.mp ht
  cases (walkSeq b x0 (i + 1)).2 <;> rfl

/-- Dropping the last hop of a nonempty hop list. -/
theorem hopList_dropLast (b : Bitmask) (x0 : Vtx × Dir) (k : ℕ) :
    (hopList b x0 (k + 1)).dropLast = hopList b x0 k := by
  rw [hopList_succ, List.dropLast_concat]

/-- The number of hops of a hop list. -/
theorem hopList_length (b : Bitmask) (x0 : Vtx × Dir) (k : ℕ) :
    (hopList b x0 k).length = k := by
  unfold hopList
  rw [List.length_map, List.length_range]

/-- The dead step of a lattice-supported walk comes within the number of
lattice pairs. -/
theorem K_le_card (b : Bitmask) (m0 : Corners) (x0 : Vtx × Dir) (K : ℕ)
    (hbox : ∀ x, memPair m0 x → x ∈ boxPairs b)
    (hKmin : ∀ j, j < K → presentAt b m0 x0 j) :
    K ≤ (boxPairs b).card := by
  by_contra hgt
  push_neg at hgt
  have hall : ∀ i : Fin ((boxPairs b).card + 1), presentAt b m0 x0 (i : ℕ) :=
    fun i => hKmin (i : ℕ) (by omega)
  obtain ⟨i, -, j, -, hne, heq⟩ :=
    Finset.exists_ne_map_eq_of_card_lt_of_maps_to
      (by simp :
        (boxPairs b).card < (Finset.univ : Finset (Fin ((boxPairs b).card + 1))).card)
      (fun i _ => hbox _ (hall i).1)
  rcases Nat.lt_or_ge (i : ℕ) (j : ℕ) with hij | hij
  · exact (hall j).2 i hij heq.symm
  · have hij' : (j : ℕ) < (i : ℕ) := by
      rcases Nat.eq_or_lt_of_le hij with h | h
      · exact absurd (Fin.ext h.symm) hne
      · exact h
    exact (hall i).2 j hij' heq

/-- Invariant of the record map maintained across extraction walks:
entries agree with `stepDir`, recorded pairs are boundary or start pairs
on the lattice, and recorded *boundary* pairs are forward-closed. -/
structure ExtInv (b : Bitmask) (m : Corners) : Prop where
  entries : ∀ p d v, lookupEntry m p d = some v → v = (succPair b (p, d)).1
  rs : ∀ x, memPair m x → Rpair b x.1 x.2 = true ∨ StartPair b x.1 x.2
  boxed : ∀ x, memPair m x → x ∈ boxPairs b
  closedR : ∀ x, memPair m x → Rpair b x.1 x.2 = true → memPair m (succPair b x)

/-- The builder's full invariant restricts to the extraction one. -/
theorem BuildInv.toExt {b : Bitmask} {m : Corners} (h : BuildInv b m) :
    ExtInv b m :=
  ⟨h.entries, h.rs, h.boxed, fun x hx _ => h.closed x hx⟩

/-- A walk that returns to its start pair emits an odd-length raw path
that closes as-is. -/
theorem emit_case_cycle (b : Bitmask) (x0 : Vtx × Dir) (K : ℕ) (hK1 : 1 ≤ K)
    (hcyc : walkSeq b x0 K = x0) (mx my : ℚ) :
    ∃ flag : Bool,
      emitLoop (Tok.M mx my :: hopList b x0 K) =
        some (flag, (Tok.M mx my :: hopList b x0 K) ++ [Tok.Z]) ∧
      loopClosed ((Tok.M mx my :: hopList b x0 K) ++ [Tok.Z]) = true := by
  have hKeven : K % 2 = 0 := by
    obtain ⟨t, ht⟩ := walkSeq_parity b x0 K
    rw [hcyc] at ht
    omega
  have hlen : (Tok.M mx my :: hopList b x0 K).length = K + 1 := by
    rw [List.length_cons, hopList_length]
  have hclosed : loopClosed ((Tok.M mx my :: hopList b x0 K) ++ [Tok.Z]) = true := by
    rw [List.cons_append]
    simp only [loopClosed]
    rw [List.getLast?_concat, List.dropLast_concat]
    simp only [if_pos rfl, if_true]
    rw [replay_hopList b x0 mx my K, hcyc]
    simp
  unfold emitLoop
  rw [hlen]
  rw [if_neg (by omega : ¬(K + 1 ≤ 2))]
  rw [if_neg (by omega : ¬((K + 1) % 2 = 0))]
  exact ⟨_, rfl, hclosed⟩

/-- A walk that returns to its *second* pair emits an even-length raw
path that closes once the final hop is dropped. -/
theorem emit_case_tail (b : Bitmask) (x0 : Vtx × Dir) (K : ℕ) (hK2 : 2 ≤ K)
    (htail : walkSeq b x0 K = walkSeq b x0 1)
    (hstart : StartPair b x0.1 x0.2) (mx my : ℚ) :
    ∃ flag : Bool,
      emitLoop (Tok.M mx my :: hopList b x0 K) =
        some (flag, (Tok.M mx my :: hopList b x0 (K - 1)) ++ [Tok.Z]) ∧
      loopClosed ((Tok.M mx my :: hopList b x0 (K - 1)) ++ [Tok.Z]) = true := by
  obtain ⟨hs1, hs2⟩ := StartPair_succ2 b x0 hstart
  have h1 : walkSeq b x0 1 = ((x0.1.1 + 1, x0.1.2), Dir.e) := hs1
  have hKodd : K % 2 = 1 := by
    obtain ⟨t, ht⟩ := walkSeq_parity b x0 K
    rw [htail, h1] at ht
    simp only at ht
    omega
  have hlen : (Tok.M mx my :: hopList b x0 K).length = K + 1 := by
    rw [List.length_cons, hopList_length]
  -- position one step before the end is the start vertex
  have hpos : (walkSeq b x0 (K - 1)).1 = x0.1 := by
    have hKsucc : walkSeq b x0 K = succPair b (walkSeq b x0 (K - 1)) := by
      have he : K - 1 + 1 = K := by omega
      rw [← he]
      rfl
    obtain ⟨d', hd'⟩ := succPair_shape2 b (walkSeq b x0 (K - 1))
    have hKval : walkSeq b x0 K =
        (((walkSeq b x0 (K - 1)).1.1 + (dirVec d').1,
          (walkSeq b x0 (K - 1)).1.2 + (dirVec d').2), d') := by
      rw [hKsucc, hd']
    rw [htail, h1] at hKval
    have hde : d' = Dir.e := by
      have := congrArg Prod.snd hKval
      exact this.symm
    subst hde
    have := congrArg Prod.fst hKval
    simp only [dirVec] at this
    have hx : x0.1.1 + 1 = (walkSeq b x0 (K - 1)).1.1 + 1 := by
      have := congrArg Prod.fst this
      simpa using this
    have hy : x0.1.2 = (walkSeq b x0 (K - 1)).1.2 + 0 := by
      have := congrArg Prod.snd this
      simpa using this
    have : (walkSeq b x0 (K - 1)).1.1 = x0.1.1 := by omega
    have h2 : (walkSeq b x0 (K - 1)).1.2 = x0.1.2 := by omega
    exact Prod.ext this h2
  have hdrop : (Tok.M mx my :: hopList b x0 K).dropLast =
      Tok.M mx my :: hopList b x0 (K - 1) := by
    have hne : hopList b x0 K ≠ [] := by
      intro h
      have := hopList_length b x0 K
      rw [h] at this
      simp at this
      omega
    rw [List.dropLast_cons_of_ne_nil hne]
    have he : (hopList b x0 K).dropLast = hopList b x0 (K - 1) := by
      conv_lhs => rw [show K = (K - 1) + 1 from by omega]
      rw [hopList_dropLast]
    rw [he]
  have hclosed : loopClosed ((Tok.M mx my :: hopList b x0 (K - 1)) ++ [Tok.Z])
      = true := by
    rw [List.cons_append]
    simp only [loopClosed]
    rw [List.getLast?_concat, List.dropLast_concat]
    simp only [if_pos rfl, if_true]
    rw [replay_hopList b x0 mx my (K - 1), hpos]
    simp
  unfold emitLoop
  rw [hlen]
  rw [if_neg (by omega : ¬(K + 1 ≤ 2))]
  rw [if_pos (by omega : (K + 1) % 2 = 0)]
  rw [hdrop]
  exact ⟨_, rfl, hclosed⟩

/-- A one-hop walk is discarded. -/
theorem emit_case_dead (b : Bitmask) (x0 : Vtx × Dir) (mx my : ℚ) :
    emitLoop (Tok.M mx my :: hopList b x0 1) = none := by
  have hlen : (Tok.M mx my :: hopList b x0 1).length = 2 := by
    rw [List.length_cons, hopList_length]
  unfold emitLoop
  rw [hlen]
  simp

/-- Consuming one walk's pairs preserves the extraction invariant: a
surviving boundary pair cannot step into a consumed pair, because the
consumed pair's unique boundary predecessor was itself consumed. -/
theorem walk_consume_ExtInv (b : Bitmask) (m : Corners) (x0 : Vtx × Dir)
    (mK : Corners) (hinv : ExtInv b m) (hmem : memPair m x0)
    (K : ℕ) (hK : ¬ presentAt b m x0 K)
    (hKmin : ∀ j, j < K → presentAt b m x0 j)
    (hmap : ∀ z : Vtx × Dir, lookupEntry mK z.1 z.2 =
      if ∃ j, j < K ∧ z = walkSeq b x0 j then none
      else lookupEntry m z.1 z.2) :
    ExtInv b mK := by
  have hmemK : ∀ z : Vtx × Dir, memPair mK z ↔
      ((¬∃ j, j < K ∧ z = walkSeq b x0 j) ∧ memPair m z) := by
    intro z
    unfold memPair
    rw [hmap z]
    by_cases hz : ∃ j, j < K ∧ z = walkSeq b x0 j
    · rw [if_pos hz]
      simp [hz]
    · rw [if_neg hz]
      simp [hz]
  obtain ⟨hK1, hcases⟩ := walk_trichotomy b m x0 hinv.rs
    (fun z hz hR => hinv.closedR z hz hR) hmem K hK hKmin
  refine ⟨?_, ?_, ?_, ?_⟩
  · intro p d v hv
    have h2 : lookupEntry mK p d =
        if ∃ j, j < K ∧ ((p, d) : Vtx × Dir) = walkSeq b x0 j then none
        else lookupEntry m p d := hmap (p, d)
    rw [h2] at hv
    by_cases hc : ∃ j, j < K ∧ ((p, d) : Vtx × Dir) = walkSeq b x0 j
    · rw [if_pos hc] at hv
      exact absurd hv (by simp)
    · rw [if_neg hc] at hv
      exact hinv.entries p d v hv
  · intro z hz
    exact hinv.rs z ((hmemK z).mp hz).2
  · intro z hz
    exact hinv.boxed z ((hmemK z).mp hz).2
  · intro z hz hR
    obtain ⟨hznc, hzm⟩ := (hmemK z).mp hz
    have hsuccm : memPair m (succPair b z) := hinv.closedR z hzm hR
    refine (hmemK _).mpr ⟨?_, hsuccm⟩
    rintro ⟨j, hj, hje⟩
    have hjsucc : ∀ i : ℕ, 1 ≤ i →
        walkSeq b x0 i = succPair b (walkSeq b x0 (i - 1)) := by
      intro i hi
      have h1 : i - 1 + 1 = i := by omega
      rw [← h1]
      rfl
    rcases hcases with ⟨hR0, hcyc⟩ | ⟨hR0, hKe⟩ | ⟨hR0, hK2, htail⟩
    · -- full-cycle case: every walk pair is a boundary pair
      have hall : ∀ i, Rpair b (walkSeq b x0 i).1 (walkSeq b x0 i).2 = true :=
        fun i => walkSeq_R_after b x0 0 hR0 i (by omega)
      rcases Nat.eq_zero_or_pos j with hj0 | hj0
      · subst hj0
        have heq : succPair b z = succPair b (walkSeq b x0 (K - 1)) := by
          rw [hje]
          have h0K : walkSeq b x0 0 = walkSeq b x0 K := hcyc.symm
          rw [h0K, hjsucc K (by omega)]
        have hzeq := Rpair_succ_inj2 b z _ hR (hall (K - 1)) heq
        exact hznc ⟨K - 1, by omega, hzeq⟩
      · have heq : succPair b z = succPair b (walkSeq b x0 (j - 1)) := by
          rw [hje, hjsucc j (by omega)]
        have hzeq := Rpair_succ_inj2 b z _ hR (hall (j - 1)) heq
        exact hznc ⟨j - 1, by omega, hzeq⟩
    · -- one-hop case: only the non-boundary start was consumed
      have hj0 : j = 0 := by omega
      subst hj0
      have hsR : Rpair b (succPair b z).1 (succPair b z).2 = true :=
        Rpair_succ2 b z hR
      rw [hje] at hsR
      have : Rpair b x0.1 x0.2 = true := hsR
      rw [hR0] at this
      exact absurd this (by decide)
    · -- tail-plus-cycle case
      have hstart : StartPair b x0.1 x0.2 := by
        rcases hinv.rs x0 hmem with h | h
        · rw [hR0] at h
          exact absurd h (by decide)
        · exact h
      obtain ⟨hs1, hs2⟩ := StartPair_succ2 b x0 hstart
      have hall1 : ∀ i, 1 ≤ i →
          Rpair b (walkSeq b x0 i).1 (walkSeq b x0 i).2 = true := by
        refine walkSeq_R_after b x0 1 ?_
        show Rpair b (succPair b x0).1 (succPair b x0).2 = true
        rw [hs1]
        exact hs2
      rcases Nat.eq_zero_or_pos j with hj0 | hj0
      · subst hj0
        have hsR : Rpair b (succPair b z).1 (succPair b z).2 = true :=
          Rpair_succ2 b z hR
        rw [hje] at hsR
        have : Rpair b x0.1 x0.2 = true := hsR
        rw [hR0] at this
        exact absurd this (by decide)
      · rcases Nat.eq_or_lt_of_le hj0 with hj1 | hj1
        · -- j = 1: the unique boundary predecessor of the second pair is
          -- the walk's last consumed pair
          have heq : succPair b z = succPair b (walkSeq b x0 (K - 1)) := by
            rw [hje, ← hj1, ← htail, hjsucc K (by omega)]
          have hzeq := Rpair_succ_inj2 b z _ hR (hall1 (K - 1) (by omega)) heq
          exact hznc ⟨K - 1, by omega, hzeq⟩
        · have heq : succPair b z = succPair b (walkSeq b x0 (j - 1)) := by
            rw [hje, hjsucc j (by omega)]
          have hzeq := Rpair_succ_inj2 b z _ hR (hall1 (j - 1) (by omega)) heq
          exact hznc ⟨j - 1, by omega, hzeq⟩

/-- One extraction vertex step preserves the extraction invariant and
appends only closed loops to the two output sequences. -/
theorem extractVertex_inv (b : Bitmask) (margin : ℤ)
    (st : Corners × List Tok × List Tok) (x y : ℤ)
    (hinv : ExtInv b st.1) (hdts : IsClosedLoops st.2.1)
    (hshps : IsClosedLoops st.2.2) :
    ExtInv b (extractVertex b margin (tracerFuel b) st x y).1 ∧
      IsClosedLoops (extractVertex b margin (tracerFuel b) st x y).2.1 ∧
      IsClosedLoops (extractVertex b margin (tracerFuel b) st x y).2.2 := by
  obtain ⟨m, dts, shps⟩ := st
  simp only [extractVertex]
  by_cases hskip : (bigGrid b && inPdpZone b margin x y) = true
  · rw [if_pos hskip]
    exact ⟨hinv, hdts, hshps⟩
  · rw [if_neg hskip]
    rcases hhead : (m (x, y)).head? with _ | e
    · exact ⟨hinv, hdts, hshps⟩
    · obtain ⟨d0, w⟩ := e
      have hmem : memPair m ((x, y), d0) := by
        unfold memPair
        rw [lookup_of_head m (x, y) d0 w hhead]
        rfl
      have hKex : ∃ k, ¬ presentAt b m ((x, y), d0) k :=
        exists_not_presentAt b m ((x, y), d0) hinv.boxed
      have hK : ¬ presentAt b m ((x, y), d0) (Nat.find hKex) := Nat.find_spec hKex
      have hKmin : ∀ j, j < Nat.find hKex → presentAt b m ((x, y), d0) j :=
        fun j hj => Decidable.not_not.mp (Nat.find_min hKex hj)
      have hKcard : Nat.find hKex ≤ (boxPairs b).card :=
        K_le_card b m ((x, y), d0) (Nat.find hKex) hinv.boxed hKmin
      have hfuel : Nat.find hKex ≤ 0 + tracerFuel b := by
        rw [card_boxPairs] at hKcard
        unfold tracerFuel
        nlinarith [hKcard]
      obtain ⟨mK, hrun, hmap⟩ := extractWalk_spec b m ((x, y), d0) hinv.entries
        (Nat.find hKex) hK hKmin (tracerFuel b) 0 m
        [Tok.M ((x : ℚ) + (margin : ℚ)) ((y : ℚ) + (margin : ℚ))]
        (by omega) hfuel
        (by
          intro z
          rw [if_neg ?_]
          rintro ⟨j, hj, -⟩
          omega)
      have hhops : (List.range (Nat.find hKex - 0)).map
          (fun i => dirTok ((walkSeq b ((x, y), d0) (0 + i + 1)).2)) =
          hopList b ((x, y), d0) (Nat.find hKex) := by
        unfold hopList
        rw [Nat.sub_zero]
        apply List.map_congr_left
        intro i _
        have he : 0 + i + 1 = i + 1 := by omega
        rw [he]
      rw [hhops] at hrun
      have hrun' : extractWalk (tracerFuel b) (x, y) d0 m
          [Tok.M ((x : ℚ) + (margin : ℚ)) ((y : ℚ) + (margin : ℚ))] =
          (mK, Tok.M ((x : ℚ) + (margin : ℚ)) ((y : ℚ) + (margin : ℚ)) ::
            hopList b ((x, y), d0) (Nat.find hKex)) := hrun
      have hext : ExtInv b mK :=
        walk_consume_ExtInv b m ((x, y), d0) mK hinv hmem (Nat.find hKex) hK hKmin hmap
      obtain ⟨hK1, hcases⟩ := walk_trichotomy b m ((x, y), d0) hinv.rs
        (fun z hz hR => hinv.closedR z hz hR) hmem (Nat.find hKex) hK hKmin
      rcases hcases with ⟨hR0, hcyc⟩ | ⟨hR0, hKe⟩ | ⟨hR0, hK2, htail⟩
      · obtain ⟨flag, hemit, hclosed⟩ := emit_case_cycle b ((x, y), d0)
          (Nat.find hKex) hK1 hcyc ((x : ℚ) + (margin : ℚ)) ((y : ℚ) + (margin : ℚ))
        rcases flag with _ | _
        · simp only [hrun', hemit, Bool.false_eq_true, if_false]
          exact ⟨hext, hdts, hshps.append_loop _ _ _ rfl
            (noM_hopList b ((x, y), d0) (Nat.find hKex)) hclosed⟩
        · simp only [hrun', hemit, if_true]
          exact ⟨hext, hdts.append_loop _ _ _ rfl
            (noM_hopList b ((x, y), d0) (Nat.find hKex)) hclosed, hshps⟩
      · simp only [hrun', hKe,
          emit_case_dead b ((x, y), d0) ((x : ℚ) + (margin : ℚ)) ((y : ℚ) + (margin : ℚ))]
        exact ⟨hext, hdts, hshps⟩
      · obtain ⟨flag, hemit, hclosed⟩ := emit_case_tail b ((x, y), d0)
          (Nat.find hKex) hK2 htail
          (by
            rcases hinv.rs ((x, y), d0) hmem with h | h
            · rw [hR0] at h
              exact absurd h (by decide)
            · exact h)
          ((x : ℚ) + (margin : ℚ)) ((y : ℚ) + (margin : ℚ))
        rcases flag with _ | _
        · simp only [hrun', hemit, Bool.false_eq_true, if_false]
          exact ⟨hext, hdts, hshps.append_loop _ _ _ rfl
            (noM_hopList b ((x, y), d0) (Nat.find hKex - 1)) hclosed⟩
        · simp only [hrun', hemit, if_true]
          exact ⟨hext, hdts.append_loop _ _ _ rfl
            (noM_hopList b ((x, y), d0) (Nat.find hKex - 1)) hclosed, hshps⟩

/-- The boundary tracer only emits closed loops, on every grid. -/
theorem calculateShapeContour_closed (b : Bitmask) (margin : ℤ) :
    (calculateShapeContour b margin).pdpOuter = [] ∧
      (calculateShapeContour b margin).pdpInner = [] ∧
      IsClosedLoops (calculateShapeContour b margin).dots ∧
      IsClosedLoops (calculateShapeContour b margin).shapes := by
  unfold calculateShapeContour
  suffices h : (fun st : Corners × List Tok × List Tok =>
      ExtInv b st.1 ∧ IsClosedLoops st.2.1 ∧ IsClosedLoops st.2.2)
      ((List.range (b.height + 1)).foldl
        (fun st y =>
          (List.range (b.width + 1)).foldl
            (fun st x => extractVertex b margin (tracerFuel b) st (x : ℤ) (y : ℤ)) st)
        (buildCorners b, [], [])) by
    exact ⟨rfl, rfl, h.2.1, h.2.2⟩
  refine foldl_preserve (fun st : Corners × List Tok × List Tok =>
      ExtInv b st.1 ∧ IsClosedLoops st.2.1 ∧ IsClosedLoops st.2.2) _ _ _
    ⟨(buildCorners_inv b).toExt, IsClosedLoops.nil, IsClosedLoops.nil⟩ ?_
  intro st y hst
  refine foldl_preserve (fun st : Corners × List Tok × List Tok =>
      ExtInv b st.1 ∧ IsClosedLoops st.2.1 ∧ IsClosedLoops st.2.2) _ _ _ hst ?_
  intro st2 x h2
  exact extractVertex_inv b margin st2 _ _ h2.1 h2.2.1 h2.2.2

/-- For every non-jitter style other than `dots`, `mosaic` and
`rounded` (the recognized `basic` plus every unrecognized string), all
four pathspecs of the computed contour are closed. -/
theorem basic_contour_closed (jm : JsMath) (bm : Bitmask) (margin : ℤ)
    (style : String) (seed : ℕ) (c : Contour)
    (hjit : strStartsWith style "jitter-" = false)
    (hd : ¬(style = "dots")) (hm : ¬(style = "mosaic")) (hr : ¬(style = "rounded"))
    (h : calculateContourSeeded jm bm margin style seed = .ok c) :
    allLoopsClosed c.pdpOuter = true ∧ allLoopsClosed c.pdpInner = true ∧
      allLoopsClosed c.dots = true ∧ allLoopsClosed c.shapes = true := by
  have hbeq : (style == "dots" || style == "mosaic") = false := by
    simp [hd, hm]
  have hround : (style == "rounded") = false := by
    simp [hr]
  unfold calculateContourSeeded at h
  rw [hbeq] at h
  simp only [Bool.false_eq_true, if_false] at h
  have h' : (Except.ok (finishContour style seed (pdpPair bm margin style).1
      (pdpPair bm margin style).2
      (roundedPair style (calculateShapeContour bm margin).shapes
        (calculateShapeContour bm margin).dots).2
      (roundedPair style (calculateShapeContour bm margin).shapes
        (calculateShapeContour bm margin).dots).1) : Except String Contour) =
      Except.ok c := h
  injection h' with h'
  subst h'
  obtain ⟨-, -, hdc, hsc⟩ := calculateShapeContour_closed bm margin
  unfold finishContour
  rw [if_neg (by rw [hjit]; exact Bool.false_ne_true)]
  unfold roundedPair
  rw [if_neg (by rw [hround]; exact Bool.false_ne_true)]
  exact ⟨(pdpPair_compact_closed bm margin style).1,
    (pdpPair_compact_closed bm margin style).2,
    hdc.compact.closed, hsc.compact.closed⟩

/-- C2 counterexample: in the `jitter-light` style, the jittered
`LineTo` endpoints no longer return to each loop's `MoveTo` point — on
the 1×1 all-filled grid the single dot loop fails replay closure. -/
theorem c2_closure_counterexample :
    (calculateContour jmId (bmOfRows 1 1 [[true]]) 1 "jitter-light").toOption.map
      (fun c => allLoopsClosed c.dots) = some false := by decide

/-- C2 (amended): loop closure by style.  For the `dots` and `mosaic`
styles all four output sequences replay to their `MoveTo` points; for
every non-jitter style both alignment sequences do; and for every
non-jitter style other than `dots`, `mosaic` and `rounded` (i.e. `basic`
and every unrecognized string, which trace the same way) the traced
`shapes` and `dots` sequences do — on every grid and margin.  Jitter
styles break closure (see the counterexample), and the `rounded` style's
shapes/dots are excluded from the closure guarantee. -/
theorem c2_closure (jm : JsMath) (bm : Bitmask) (margin : ℤ) (style : String)
    (c : Contour) (h : calculateContour jm bm margin style = .ok c) :
    ((style = "dots" ∨ style = "mosaic") →
      allLoopsClosed c.pdpOuter = true ∧ allLoopsClosed c.pdpInner = true ∧
        allLoopsClosed c.dots = true ∧ allLoopsClosed c.shapes = true) ∧
    (strStartsWith style "jitter-" = false →
      allLoopsClosed c.pdpOuter = true ∧ allLoopsClosed c.pdpInner = true) ∧
    (strStartsWith style "jitter-" = false → ¬(style = "dots") →
      ¬(style = "mosaic") → ¬(style = "rounded") →
      allLoopsClosed c.dots = true ∧ allLoopsClosed c.shapes = true) := by
  refine ⟨?_, ?_, ?_⟩
  · intro hsty
    exact dotsMosaic_contour_closed jm bm margin style 1 c hsty h
  · intro hjit
    exact nonJitter_pdp_closed jm bm margin style 1 c hjit h
  · intro hjit hd hm hr
    obtain ⟨-, -, h3, h4⟩ := basic_contour_closed jm bm margin style 1 c hjit hd hm hr h
    exact ⟨h3, h4⟩

/-- C2 witness: concrete closed contours for the `basic` and `dots`
styles on 2×2 grids, via `c2_closure`. -/
theorem c2_closure_witness :
    (∃ c, calculateContour jmId (bmOfRows 2 2 [[true, false], [false, true]]) 1
        "basic" = .ok c ∧
      allLoopsClosed c.pdpOuter = true ∧ allLoopsClosed c.pdpInner = true ∧
      allLoopsClosed c.dots = true ∧ allLoopsClosed c.shapes = true) ∧
    (∃ c, calculateContour jmId (bmOfRows 2 2 [[true, true], [true, false]]) 1
        "dots" = .ok c ∧
      allLoopsClosed c.pdpOuter = true ∧ allLoopsClosed c.pdpInner = true ∧
      allLoopsClosed c.dots = true ∧ allLoopsClosed c.shapes = true) := by
  constructor
  · rcases hc : calculateContour jmId (bmOfRows 2 2 [[true, false], [false, true]]) 1
        "basic" with e | c
    · have hnone : (calculateContour jmId
          (bmOfRows 2 2 [[true, false], [false, true]]) 1 "basic").toOption
          = none := by rw [hc]; rfl
      exact absurd hnone (by decide)
    · have h := c2_closure jmId (bmOfRows 2 2 [[true, false], [false, true]]) 1
        "basic" c hc
      obtain ⟨h1, h2⟩ := h.2.1 (by decide)
      obtain ⟨h3, h4⟩ := h.2.2 (by decide) (by decide) (by decide) (by decide)
      exact ⟨c, rfl, h1, h2, h3, h4⟩
  · rcases hc : calculateContour jmId (bmOfRows 2 2 [[true, true], [true, false]]) 1
        "dots" with e | c
    · have hnone : (calculateContour jmId
          (bmOfRows 2 2 [[true, true], [true, false]]) 1 "dots").toOption
          = none := by rw [hc]; rfl
      exact absurd hnone (by decide)
    · have h := c2_closure jmId (bmOfRows 2 2 [[true, true], [true, false]]) 1
        "dots" c hc
      obtain ⟨h1, h2, h3, h4⟩ := h.1 (Or.inl rfl)
      exact ⟨c, rfl, h1, h2, h3, h4⟩

/-! ## Concrete sanity checks of the embedding -/

example :
    (calculateContour jmId (bmOfRows 1 1 [[true]]) 1 "basic").toOption =
      some { pdpOuter := [], pdpInner := [],
             dots := [Tok.M 1 1, Tok.H 1, Tok.V 1, Tok.H (-1), Tok.V (-1), Tok.Z],
             shapes := [] } := by decide

example :
    (calculateContour jmId (bmOfRows 3 3 [[false, false, false], [false, true, false], [false, false, false]]) 1 "basic").toOption =
      some { pdpOuter := [], pdpInner := [],
             dots := [Tok.M 2 2, Tok.H 1, Tok.V 1, Tok.H (-1), Tok.V (-1), Tok.Z],
             shapes := [] } := by decide

example :
    compactPathSpec [Tok.M 0 0, Tok.H 1, Tok.H 1, Tok.V 1, Tok.V (-1), Tok.Z] =
      [Tok.M 0 0, Tok.H 2, Tok.V 0, Tok.Z] := by decide

example :
    makePathSpecRound [Tok.M 1 1, Tok.H 1, Tok.V 1, Tok.H (-1), Tok.V (-1), Tok.Z] =
      [Tok.M (3/2) 1, Tok.A true (1/2) (1/2), Tok.A true (-(1/2)) (1/2),
       Tok.A true (-(1/2)) (-(1/2)), Tok.A true (1/2) (-(1/2)), Tok.Z] := by decide

example :
    (calculateContour jmId (bmOfRows 3 3 []) 1 "basic").toOption =
      some { pdpOuter := [], pdpInner := [], dots := [], shapes := [] } := by decide

example :
    (calculateContour jmId (bmOfRows 2 2 [[true, true], [true, true]]) 1 "basic").toOption =
      some { pdpOuter := [], pdpInner := [],
             dots := [],
             shapes := [Tok.M 1 1, Tok.H 2, Tok.V 2, Tok.H (-2), Tok.V (-2), Tok.Z] } := by
  decide

example :
    ((calculateContour jmId (bmOfRows 1 1 [[true]]) 1 "jitter-light").toOption.map
      (fun c => allLoopsClosed c.dots)) = some false := by decide

example :
    ((calculateContour jmId (bmOfRows 3 3 [[], [false, true]]) 1 "rounded").toOption.map
      (fun c => (c.dots, allLoopsClosed c.dots))) =
      some ([Tok.M (5/2) 2, Tok.A true (1/2) (1/2), Tok.A true (-(1/2)) (1/2),
             Tok.A true (-(1/2)) (-(1/2)), Tok.A true (1/2) (-(1/2)), Tok.Z], true) := by decide

example :
    ((calculateContour jmId (bmOfRows 3 3 [[], [false, true]]) 1 "dots").toOption.map
      (fun c => (c.dots, allLoopsClosed c.dots))) =
      some ([Tok.M (5/2) 2, Tok.A true (1/2) (1/2), Tok.A true (-(1/2)) (1/2),
             Tok.A true (-(1/2)) (-(1/2)), Tok.A true (1/2) (-(1/2)), Tok.Z], true) := by decide

example :
    ((calculateContour jmId (bmOfRows 3 3 [[], [false, true]]) 1 "mosaic").toOption.map
      (fun c => (allLoopsClosed c.dots, c.dots.length, c.shapes))) =
      some (true, 6, []) := by decide

example :
    ((calculateContour jmId (bmOfRows 20 20 []) 1 "dots").toOption.map
      (fun c => (countM c.pdpOuter, countM c.pdpInner,
                 allLoopsClosed c.pdpOuter, allLoopsClosed c.pdpInner))) =
      some (6, 3, true, true) := by decide

example :
    ((calculateContour jmId (bmOfRows 4 4
        [[true, false, true, false], [false, true, false, true],
         [true, false, true, false], [false, true, false, true]]) 1 "basic").toOption.map
      (fun c => (allLoopsClosed c.dots, allLoopsClosed c.shapes))) =
      some (true, true) := by decide

example :
    ((calculateContour jmId (bmOfRows 4 4
        [[true, true, true, true], [true, false, false, true],
         [true, false, false, true], [true, true, true, true]]) 1 "basic").toOption.map
      (fun c => (allLoopsClosed c.dots, allLoopsClosed c.shapes, countM c.shapes))) =
      some (true, true, 2) := by decide

example :
    ((calculateContour jmId (bmOfRows 4 4
        [[true, true, true, true], [true, false, false, true],
         [true, false, false, true], [true, true, true, true]]) 1 "rounded").toOption.map
      (fun c => (allLoopsClosed c.dots, allLoopsClosed c.shapes, countM c.shapes))) =
      some (true, true, 2) := by decide

example :
    ((calculateContour jmId (bmOfRows 6 6
        [[true, true, true, false, false, true],
         [true, false, true, false, false, false],
         [true, true, true, false, true, true],
         [false, false, false, false, true, true],
         [true, false, true, false, false, false],
         [false, true, false, true, false, false]]) 1 "basic").toOption.map
      (fun c => (allLoopsClosed c.dots, allLoopsClosed c.shapes))) =
      some (true, true) := by decide

example :
    ((calculateContour jmId (bmOfRows 6 6
        [[true, true, true, false, false, true],
         [true, false, true, false, false, false],
         [true, true, true, false, true, true],
         [false, false, false, false, true, true],
         [true, false, true, false, false, false],
         [false, true, false, true, false, false]]) 1 "rounded").toOption.map
      (fun c => (allLoopsClosed c.dots, allLoopsClosed c.shapes))) =
      some (true, true) := by decide

example :
    ((calculateContour jmId (bmOfRows 6 6
        [[true, true, true, false, false, true],
         [true, false, true, false, false, false],
         [true, true, true, false, true, true],
         [false, false, false, false, true, true],
         [true, false, true, false, false, false],
         [false, true, false, true, false, false]]) 1 "jitter-light").toOption.map
      (fun c => (allLoopsClosed c.dots, allLoopsClosed c.shapes))) =
      some (false, false) := by decide
